import Mathlib

/-!
# Gondola Bookmarker

A shallow embedding of `gondola-bookmarker.go`: the in-memory bookmark map with its
`needs_saving` flag, the two request handlers, the body of the hourly persistence loop
`saveEveryNowAndAgain`, and the start-up `load`.

The program leans on three library routines whose behaviour decides several properties:
`strconv.Atoi` (form field `time`), `json.Marshal` and `json.Unmarshal` on a
`map[string]int`.  They are embedded here as far as this program exercises them, for a
64-bit target (`int` is 64 bits wide).

Bytes are written as numbers.  The ones that recur: 34 `"`, 43 `+`, 44 `,`, 45 `-`,
46 `.`, 48 to 57 the digits `0` to `9`, 58 `:`, 69 `E`, 92 the backslash, 101 `e`,
110 `n`, 117 `u`, 123 and 125 the braces.
-/

namespace Gondola

/-! ## Go values -/

/-- One byte. -/
abbrev Byte := Fin 256

/-- Go `string`: an immutable sequence of bytes, not necessarily valid UTF-8.  Form values
arrive percent-decoded, so any byte sequence can reach the handlers. -/
abbrev GoString := List Byte

/-- Go `int` on a 64-bit target. -/
abbrev GoInt := { i : Int // -9223372036854775808 ≤ i ∧ i ≤ 9223372036854775807 }

/-- The zero value of `int`. -/
def GoInt.zero : GoInt := ⟨0, by decide⟩

/-- Conversion of a wider integer to `int`: keeps the low 64 bits (two's complement). -/
def GoInt.wrap (i : Int) : GoInt :=
  ⟨(i + 9223372036854775808) % 18446744073709551616 - 9223372036854775808, by omega⟩

/-- Truncation of a natural number to a byte. -/
def toByte (n : Nat) : Byte := ⟨n % 256, Nat.mod_lt _ (by decide)⟩

/-- `var bookmarks = make(map[string]int)`: a finite map with unique keys. -/
abbrev Bookmarks := AList (fun _ : GoString => GoInt)

/-! ## strconv -/

/-- The two causes `strconv` reports in a `*NumError`. -/
inductive NumError
  | ErrSyntax
  | ErrRange
  deriving DecidableEq, Repr

/-- `maxUint64/10 + 1`: the smallest `n` with `n*10` overflowing 64 bits. -/
def cutoff10 : Nat := 1844674407370955162

/-- `1<<64 - 1`. -/
def maxUint64 : Nat := 18446744073709551615

/-- `lower(c)` of `strconv`: `c | ('x' - 'X')`. -/
def lower (c : Byte) : Nat := c.val ||| 32

/-- The digit loop of `strconv.ParseUint(s, 10, 64)` with accumulator `n` (a `uint64`).
A byte that is no decimal digit is a syntax error with value `0`; an overflow stops the
loop at once with `maxVal` and a range error, before later bytes are looked at. -/
def parseUintLoop : List Byte → Nat → Nat × Option NumError
  | [], n => (n, none)
  | c :: rest, n =>
    let d? : Option Nat :=
      if 48 ≤ c.val ∧ c.val ≤ 57 then some (c.val - 48)
      else if 97 ≤ lower c ∧ lower c ≤ 122 then some (lower c - 97 + 10)
      else none
    match d? with
    | none => (0, some NumError.ErrSyntax)
    | some d =>
      if d ≥ 10 then (0, some NumError.ErrSyntax)
      else if n ≥ cutoff10 then (maxUint64, some NumError.ErrRange)
      else
        let n10 := (n * 10) % 18446744073709551616
        let n1 := (n10 + d) % 18446744073709551616
        if n1 < n10 ∨ n1 > maxUint64 then (maxUint64, some NumError.ErrRange)
        else parseUintLoop rest n1

/-- `strconv.ParseUint(s, 10, 64)`. -/
def ParseUint (s : GoString) : Nat × Option NumError :=
  if s = [] then (0, some NumError.ErrSyntax) else parseUintLoop s 0

/-- `strconv.ParseInt(s, 10, 64)` (also what bit size `0` means on this target). -/
def ParseInt (s : GoString) : Int × Option NumError :=
  match s with
  | [] => (0, some NumError.ErrSyntax)
  | c :: t =>
    let neg : Bool := c.val == 45
    let s1 : GoString := if c.val = 43 ∨ c.val = 45 then t else s
    let r := ParseUint s1
    if r.2 = some NumError.ErrSyntax then (0, r.2)
    else if !neg && decide (r.1 ≥ 9223372036854775808) then
      (9223372036854775807, some NumError.ErrRange)
    else if neg && decide (r.1 > 9223372036854775808) then
      (-9223372036854775808, some NumError.ErrRange)
    else (if neg then -(r.1 : Int) else (r.1 : Int), none)

/-- The fast-path loop of `strconv.Atoi`: `ch -= '0'` wraps as a byte, `ch > 9` is a
syntax error, otherwise `n = n*10 + int(ch)`. -/
def atoiFast : List Byte → Int → Option Int
  | [], n => some n
  | ch :: rest, n =>
    let d := (ch.val + 256 - 48) % 256
    if d > 9 then none else atoiFast rest (n * 10 + d)

/-- `strconv.Atoi`: the value and the error it returns. -/
def Atoi (s : GoString) : GoInt × Option NumError :=
  if 0 < s.length ∧ s.length < 19 then
    match s with
    | [] => (GoInt.zero, some NumError.ErrSyntax)
    | c :: t =>
      let signed : Bool := c.val == 45 || c.val == 43
      if signed && decide (t.length < 1) then (GoInt.zero, some NumError.ErrSyntax)
      else
        match atoiFast (if signed then t else s) 0 with
        | none => (GoInt.zero, some NumError.ErrSyntax)
        | some n => (GoInt.wrap (if c.val = 45 then -n else n), none)
  else
    let r := ParseInt s
    (GoInt.wrap r.1, r.2)

/-- The decimal digits of `u`, most significant first, prepended to `acc`
(`strconv.formatBits` in base 10 writes them from the end of its buffer). -/
def formatBits : Nat → Nat → List Byte → List Byte
  | 0, _, acc => acc
  | fuel + 1, u, acc =>
    if u ≥ 10 then formatBits fuel (u / 10) (toByte (48 + u % 10) :: acc)
    else toByte (48 + u) :: acc

/-- `strconv.AppendInt(nil, i, 10)`: a `-` for negative values, then the digits of the
magnitude. -/
def AppendInt (i : GoInt) : List Byte :=
  if i.val < 0 then 45 :: formatBits 20 (-i.val).toNat [] else formatBits 20 i.val.toNat []

/-! ## unicode/utf8 and utf16 -/

/-- `utf8.RuneError`, U+FFFD. -/
def RuneError : Nat := 65533

/-- The table `first` together with `acceptRanges`: for a lead byte of a multi-byte
sequence, the sequence length and the range allowed for the second byte. -/
def first (s0 : Nat) : Option (Nat × Nat × Nat) :=
  if s0 < 194 then none
  else if s0 < 224 then some (2, 128, 191)
  else if s0 = 224 then some (3, 160, 191)
  else if s0 < 237 then some (3, 128, 191)
  else if s0 = 237 then some (3, 128, 159)
  else if s0 < 240 then some (3, 128, 191)
  else if s0 = 240 then some (4, 144, 191)
  else if s0 < 244 then some (4, 128, 191)
  else if s0 = 244 then some (4, 128, 143)
  else none

/-- `utf8.DecodeRune`: the rune at the head of `s` and its width in bytes; an invalid or
cut-off encoding is `(RuneError, 1)`.  The test `n < sz` of the original is the `[]` case
of each match. -/
def DecodeRune (s : List Byte) : Nat × Nat :=
  match s with
  | [] => (RuneError, 0)
  | s0 :: t =>
    if s0.val < 128 then (s0.val, 1)
    else
      match first s0.val with
      | none => (RuneError, 1)
      | some (sz, lo, hi) =>
        match t with
        | [] => (RuneError, 1)
        | s1 :: t1 =>
          if s1.val < lo ∨ hi < s1.val then (RuneError, 1)
          else if sz ≤ 2 then (s0.val % 32 * 64 + s1.val % 64, 2)
          else
            match t1 with
            | [] => (RuneError, 1)
            | s2 :: t2 =>
              if s2.val < 128 ∨ 191 < s2.val then (RuneError, 1)
              else if sz ≤ 3 then
                (s0.val % 16 * 4096 + s1.val % 64 * 64 + s2.val % 64, 3)
              else
                match t2 with
                | [] => (RuneError, 1)
                | s3 :: _ =>
                  if s3.val < 128 ∨ 191 < s3.val then (RuneError, 1)
                  else
                    (s0.val % 8 * 262144 + s1.val % 64 * 4096 + s2.val % 64 * 64
                      + s3.val % 64, 4)

/-- `utf8.EncodeRune`: the UTF-8 encoding of `r`; surrogates and values beyond U+10FFFF
are encoded as U+FFFD. -/
def EncodeRune (r : Nat) : List Byte :=
  if r ≤ 127 then [toByte r]
  else if r ≤ 2047 then [toByte (192 + r / 64), toByte (128 + r % 64)]
  else if r > 1114111 ∨ (55296 ≤ r ∧ r ≤ 57343) then [239, 191, 189]
  else if r ≤ 65535 then
    [toByte (224 + r / 4096), toByte (128 + r / 64 % 64), toByte (128 + r % 64)]
  else
    [toByte (240 + r / 262144), toByte (128 + r / 4096 % 64), toByte (128 + r / 64 % 64),
      toByte (128 + r % 64)]

/-- `utf8.ValidString`, by repeated decoding. -/
def validUTF8 : Nat → List Byte → Bool
  | 0, s => s.isEmpty
  | _ + 1, [] => true
  | fuel + 1, b :: rest =>
    let r := DecodeRune (b :: rest)
    if r.1 = RuneError ∧ r.2 = 1 then false else validUTF8 fuel ((b :: rest).drop r.2)

/-- `utf8.ValidString(s)`. -/
def ValidString (s : GoString) : Bool := validUTF8 s.length s

/-- The loop behind `toValidUTF8`, over what is left of the string. -/
def coerceLoop : Nat → List Byte → List Byte
  | 0, _ => []
  | _ + 1, [] => []
  | fuel + 1, b :: rest =>
    let r := DecodeRune (b :: rest)
    if r.1 = RuneError ∧ r.2 = 1 then [239, 191, 189] ++ coerceLoop fuel rest
    else (b :: rest).take r.2 ++ coerceLoop fuel ((b :: rest).drop r.2)

/-- A string coerced to valid UTF-8 the way `encoding/json` does it when it writes a
string: every byte that does not start a well-formed encoding is replaced by U+FFFD
(bytes 239, 191, 189), everything else is kept. -/
def toValidUTF8 (s : GoString) : GoString := coerceLoop s.length s

/-! ## encoding/json: Marshal of a `map[string]int` -/

/-- `hex[n]`, the table `"0123456789abcdef"`. -/
def hexDigit (n : Nat) : Byte := if n < 10 then toByte (48 + n) else toByte (87 + n)

/-- `htmlSafeSet`: the ASCII bytes written to a JSON string as they are when HTML escaping
is on (the default of `json.Marshal`). -/
def htmlSafe (b : Nat) : Bool :=
  decide (32 ≤ b ∧ b < 128 ∧ b ≠ 34 ∧ b ≠ 38 ∧ b ≠ 60 ∧ b ≠ 62 ∧ b ≠ 92)

/-- The escape `appendString` writes for an ASCII byte outside `htmlSafeSet`: a backslash
and the byte itself for `\` and `"`, a backslash and a letter for backspace, form feed,
line feed, carriage return and tab, and backslash, `u00` and two hex digits for the other
control bytes and for `<`, `>` and `&`.  (Toolchains before Go 1.22 write backspace and
form feed in the `u00` form; both forms read back to the same byte.) -/
def escapeAscii (b : Nat) : List Byte :=
  if b = 92 ∨ b = 34 then [92, toByte b]
  else if b = 8 then [92, 98]
  else if b = 12 then [92, 102]
  else if b = 10 then [92, 110]
  else if b = 13 then [92, 114]
  else if b = 9 then [92, 116]
  else [92, 117, 48, 48, hexDigit (b / 16), hexDigit (b % 16)]

/-- The loop of `appendString(dst, src, true)` over what is left of `src`: safe ASCII is
copied, other ASCII is escaped, an invalid UTF-8 byte becomes the escape of U+FFFD,
U+2028 and U+2029 are escaped and every other well-formed multi-byte rune is copied. -/
def appendStringLoop : Nat → List Byte → List Byte
  | 0, _ => []
  | _ + 1, [] => []
  | fuel + 1, b :: rest =>
    if b.val < 128 then
      if htmlSafe b.val then b :: appendStringLoop fuel rest
      else escapeAscii b.val ++ appendStringLoop fuel rest
    else
      let r := DecodeRune (b :: rest)
      if r.1 = RuneError ∧ r.2 = 1 then
        [92, 117, 102, 102, 102, 100] ++ appendStringLoop fuel rest
      else if r.1 = 8232 ∨ r.1 = 8233 then
        [92, 117, 50, 48, 50, hexDigit (r.1 % 16)]
          ++ appendStringLoop fuel ((b :: rest).drop r.2)
      else (b :: rest).take r.2 ++ appendStringLoop fuel ((b :: rest).drop r.2)

/-- `appendString(nil, src, true)`: the JSON string literal for `src`. -/
def appendString (src : GoString) : List Byte :=
  34 :: (appendStringLoop src.length src ++ [34])

/-- Go's `<` on strings: bytewise lexicographic. -/
def strLess : GoString → GoString → Bool
  | [], [] => false
  | [], _ :: _ => true
  | _ :: _, [] => false
  | a :: as, b :: bs => decide (a.val < b.val) || (decide (a.val = b.val) && strLess as bs)

/-- The key/value pairs of the map in the order `json.Marshal` writes them: sorted by key. -/
def sortedEntries (m : Bookmarks) : List (Sigma (fun _ : GoString => GoInt)) :=
  m.entries.insertionSort (fun a b => strLess b.1 a.1 = false)

/-- The members of the object: `for i, kv := range sv`, a comma before all but the first,
then the quoted key, a colon and the number. -/
def encodeMembers : Nat → List (Sigma (fun _ : GoString => GoInt)) → List Byte
  | _, [] => []
  | i, kv :: rest =>
    (if i > 0 then [44] else []) ++ appendString kv.1 ++ 58 :: AppendInt kv.2
      ++ encodeMembers (i + 1) rest

/-- `json.Marshal(bookmarks)`.  For a non-nil `map[string]int` the encoder has no failing
case, so the result is always `ok`. -/
def jsonMarshal (m : Bookmarks) : Except String (List Byte) :=
  Except.ok (123 :: (encodeMembers 0 (sortedEntries m) ++ [125]))

/-! ## encoding/json: Unmarshal into a nil `map[string]int` -/

/-- The scanner's `isSpace`. -/
def isSpace (c : Byte) : Bool := c.val == 32 || c.val == 9 || c.val == 13 || c.val == 10

/-- Skip JSON white space. -/
def skipSpace : List Byte → List Byte
  | [] => []
  | c :: rest => if isSpace c then skipSpace rest else c :: rest

/-- The value of a hexadecimal digit, as `getu4` reads it. -/
def hexVal (c : Byte) : Option Nat :=
  if 48 ≤ c.val ∧ c.val ≤ 57 then some (c.val - 48)
  else if 97 ≤ c.val ∧ c.val ≤ 102 then some (c.val - 97 + 10)
  else if 65 ≤ c.val ∧ c.val ≤ 70 then some (c.val - 65 + 10)
  else none

/-- `getu4`: the rune of a `\uXXXX` escape at the head of `s`, or `none` (the original's
`-1`). -/
def getu4 (s : List Byte) : Option Nat :=
  match s with
  | b :: u :: h1 :: h2 :: h3 :: h4 :: _ =>
    if b.val = 92 ∧ u.val = 117 then
      match hexVal h1, hexVal h2, hexVal h3, hexVal h4 with
      | some a, some b, some c, some d => some (((a * 16 + b) * 16 + c) * 16 + d)
      | _, _, _, _ => none
    else none
  | _ => none

/-- The byte denoted by a one-letter escape; `none` for a letter the scanner rejects. -/
def simpleEscape (e : Byte) : Option Byte :=
  if e.val = 34 ∨ e.val = 92 ∨ e.val = 47 then some e
  else if e.val = 98 then some 8
  else if e.val = 102 then some 12
  else if e.val = 110 then some 10
  else if e.val = 114 then some 13
  else if e.val = 116 then some 9
  else none

/-- Reading of a JSON string after its opening quote: the scanner's checks (no raw control
character, only the known escapes, four hex digits after `\u`) and `unquote`'s decoding in
one pass.  Returns the decoded bytes and the input after the closing quote.  A surrogate
escape not followed by its partner, and every byte that is not well-formed UTF-8, decodes
to U+FFFD. -/
def unquoteLoop : Nat → List Byte → Option (GoString × List Byte)
  | 0, _ => none
  | _ + 1, [] => none
  | fuel + 1, c :: rest =>
    if c.val = 34 then some ([], rest)
    else if c.val = 92 then
      match rest with
      | [] => none
      | e :: rest1 =>
        if e.val = 117 then
          match getu4 (c :: rest) with
          | none => none
          | some rr =>
            let after := rest1.drop 4
            if 55296 ≤ rr ∧ rr < 57344 then
              match getu4 after with
              | some rr1 =>
                if rr < 56320 ∧ 56320 ≤ rr1 ∧ rr1 < 57344 then
                  (unquoteLoop fuel (after.drop 6)).map (fun p =>
                    (EncodeRune ((rr - 55296) * 1024 + (rr1 - 56320) + 65536) ++ p.1, p.2))
                else (unquoteLoop fuel after).map (fun p => (EncodeRune RuneError ++ p.1, p.2))
              | none => (unquoteLoop fuel after).map (fun p => (EncodeRune RuneError ++ p.1, p.2))
            else (unquoteLoop fuel after).map (fun p => (EncodeRune rr ++ p.1, p.2))
        else
          match simpleEscape e with
          | none => none
          | some b => (unquoteLoop fuel rest1).map (fun p => (b :: p.1, p.2))
    else if c.val < 32 then none
    else if c.val < 128 then (unquoteLoop fuel rest).map (fun p => (c :: p.1, p.2))
    else
      let r := DecodeRune (c :: rest)
      (unquoteLoop fuel ((c :: rest).drop r.2)).map (fun p => (EncodeRune r.1 ++ p.1, p.2))

/-- The run of decimal digits at the head of the input, and what follows it. -/
def spanDigits : List Byte → List Byte × List Byte
  | [] => ([], [])
  | c :: rest =>
    if 48 ≤ c.val ∧ c.val ≤ 57 then ((c :: (spanDigits rest).1), (spanDigits rest).2)
    else ([], c :: rest)

/-- A JSON number stored into an `int`: the scanner accepts `-? (0 | [1-9][0-9]*)` followed
by an optional fraction and exponent; the literal is then handed to `strconv.ParseInt`,
which fails on a fraction, an exponent or a value outside the `int` range.  Every failure,
of syntax or of type, ends in `Unmarshal` returning an error, so a `.`, `e` or `E` after
the integer part is reported as failure at once. -/
def parseNumber (s : List Byte) : Option (GoInt × List Byte) :=
  let neg : Bool := match s with
    | c :: _ => c.val == 45
    | [] => false
  let body := if neg then s.drop 1 else s
  match body with
  | [] => none
  | d :: t =>
    if d.val = 48 then
      match t with
      | c :: _ =>
        if c.val = 46 ∨ c.val = 101 ∨ c.val = 69 then none
        else some (GoInt.zero, t)
      | [] => some (GoInt.zero, t)
    else if 49 ≤ d.val ∧ d.val ≤ 57 then
      let sp := spanDigits t
      let lit := (if neg then [(45 : Byte)] else []) ++ d :: sp.1
      let after := sp.2
      let bad : Bool := match after with
        | c :: _ => c.val == 46 || c.val == 101 || c.val == 69
        | [] => false
      if bad then none
      else
        let r := ParseInt lit
        if r.2 = none then some (GoInt.wrap r.1, after) else none
    else none

/-- A member value stored into the `int` element: a number, or `null`, which leaves the
zero value; any other JSON value is a type error. -/
def parseValue (s : List Byte) : Option (GoInt × List Byte) :=
  match s with
  | 110 :: 117 :: 108 :: 108 :: rest => some (GoInt.zero, rest)
  | _ => parseNumber s

/-- The members of an object, the input standing at the opening quote of a key (after
white space): `"key" : value` then either `,` and the next member or `}`.  Each pair is
stored with `SetMapIndex`, so a repeated key keeps its last value.  Returns the map and the
input after the closing brace. -/
def parseMembers : Nat → List Byte → Bookmarks → Option (Bookmarks × List Byte)
  | 0, _, _ => none
  | fuel + 1, s, m =>
    match skipSpace s with
    | q :: s1 =>
      if q.val = 34 then
        match unquoteLoop s1.length s1 with
        | none => none
        | some (key, s2) =>
          match skipSpace s2 with
          | colon :: s3 =>
            if colon.val = 58 then
              match parseValue (skipSpace s3) with
              | none => none
              | some (v, s4) =>
                match skipSpace s4 with
                | c :: s5 =>
                  if c.val = 44 then parseMembers fuel s5 (m.insert key v)
                  else if c.val = 125 then some (m.insert key v, s5)
                  else none
                | [] => none
            else none
          | [] => none
      else none
    | [] => none

/-- `json.Unmarshal(data, &items)` for `var items map[string]int`: `error` when the
library returns an error (invalid syntax and type mismatch alike), otherwise the value
left in `items`: `none` for a nil map (top-level `null`), `some m` for an object. -/
def jsonUnmarshal (data : List Byte) : Except String (Option Bookmarks) :=
  match skipSpace data with
  | 110 :: 117 :: 108 :: 108 :: rest =>
    if skipSpace rest = [] then Except.ok none else Except.error "invalid character"
  | 123 :: rest =>
    match skipSpace rest with
    | 125 :: rest1 =>
      if skipSpace rest1 = [] then Except.ok (some ∅) else Except.error "invalid character"
    | _ =>
      match parseMembers data.length rest ∅ with
      | some (m, rest1) =>
        if skipSpace rest1 = [] then Except.ok (some m) else Except.error "invalid character"
      | none => Except.error "cannot unmarshal"
  | _ => Except.error "cannot unmarshal"

/-! ## The program -/

/-- The process-wide variables `bookmarks` and `needs_saving`. -/
structure Store where
  bookmarks : Bookmarks
  needs_saving : Bool

/-- The variables as declared: an empty map, nothing to save. -/
def Store.init : Store := { bookmarks := ∅, needs_saving := false }

/-- The bookmarks file: `none` when it cannot be read, else its bytes. -/
abbrev Disk := Option (List Byte)

/-- Critical section of the `/bookmark/set` handler:
`bookmarks[item] = time; needs_saving = true`. -/
def Store.set (s : Store) (item : GoString) (time : GoInt) : Store :=
  { bookmarks := s.bookmarks.insert item time, needs_saving := true }

/-- Critical section of the `/bookmark/get` handler: `time := bookmarks[item]`, the zero
value for a missing key. -/
def Store.get (s : Store) (item : GoString) : GoInt :=
  (s.bookmarks.lookup item).getD GoInt.zero

/-- The `/bookmark/set` handler on its two form values:
`time, _ := strconv.Atoi(r.FormValue("time"))`, the error dropped. -/
def bookmarkSet (item timeField : GoString) (s : Store) : Store :=
  s.set item (Atoi timeField).1

/-- The body the `/bookmark/get` handler writes: `json.Marshal(myresponse{Time: time})`,
that is `{"time":N}`. -/
def bookmarkGet (item : GoString) (s : Store) : List Byte :=
  [123, 34, 116, 105, 109, 101, 34, 58] ++ AppendInt (s.get item) ++ [125]

/-- `load()`: a read error or an unmarshal error leaves `bookmarks` as it is, and so does
a nil result; otherwise the decoded map replaces it. -/
def load (file : Disk) (bookmarks : Bookmarks) : Bookmarks :=
  match file with
  | none => bookmarks
  | some data =>
    match jsonUnmarshal data with
    | Except.error _ => bookmarks
    | Except.ok none => bookmarks
    | Except.ok (some items) => items

/-- What the environment does with `ioutil.WriteFile`: it succeeds, or it fails and leaves
the file in some state. -/
inductive WriteOutcome
  | ok
  | fail (left : Disk)
  deriving DecidableEq

/-- What one pass of the loop body did. -/
structure Flush where
  store : Store
  disk : Disk
  /-- The contents handed to `ioutil.WriteFile`, one per call. -/
  writes : List (List Byte)
  /-- The lines given to `log.Println`. -/
  logged : List String

/-- The part of the loop body inside the lock: if `needs_saving`, marshal; on success keep
the bytes and clear `needs_saving`, on failure log.  Returns `json_if_we_want_to_write`
(`none` for nil), the variables and the lines logged. -/
def lockedSection (s : Store) : Option (List Byte) × Store × List String :=
  if s.needs_saving then
    match jsonMarshal s.bookmarks with
    | Except.error e => (none, s, ["Error serialising: " ++ e])
    | Except.ok json => (some json, { s with needs_saving := false }, [])
  else (none, s, [])

/-- The part of the loop body outside the lock, for bytes that are not nil:
`ioutil.WriteFile`, a failure logged.  Returns the file and the lines logged. -/
def writeOut (w : WriteOutcome) (json : List Byte) : Disk × List String :=
  match w with
  | WriteOutcome.ok => (some json, [])
  | WriteOutcome.fail left => (left, ["Error writing"])

/-- One pass of the body of `saveEveryNowAndAgain` after the sleep: the locked section,
then the write if there are bytes to write. -/
def flushCycle (w : WriteOutcome) (s : Store) (disk : Disk) : Flush :=
  let locked := lockedSection s
  match locked.1 with
  | some json =>
    { store := locked.2.1, disk := (writeOut w json).1, writes := [json],
      logged := locked.2.2 ++ (writeOut w json).2 }
  | none => { store := locked.2.1, disk := disk, writes := [], logged := locked.2.2 }

/-- The atomic steps of a run: the critical section of a set request; the locked section
of the persistence loop; and the write the loop makes after it, with the outcome the
environment gives it.  Request handlers run between the last two, so a `set` may fall
between a locked section and its write. -/
inductive Event
  | set (item : GoString) (time : GoInt)
  | snapshot
  | write (w : WriteOutcome)
  deriving DecidableEq

/-- The program state with its history. -/
structure Sys where
  store : Store
  disk : Disk
  /-- The bytes `json_if_we_want_to_write` between a locked section and its write; `none`
  while the loop sleeps. -/
  pending : Option (List Byte)
  /-- The entries marshalled by the latest locked section that took a snapshot. -/
  captured : Option Bookmarks
  /-- The entries marshalled for the latest write that succeeded. -/
  persisted : Option Bookmarks
  /-- Number of `set` steps since the latest locked section that took a snapshot (or since
  start). -/
  setsSinceCapture : Nat
  /-- Number of `set` steps since the locked section of the latest pass whose write
  succeeded (or since start). -/
  setsSincePersist : Nat
  /-- Every content handed to `ioutil.WriteFile` so far, oldest first. -/
  writes : List (List Byte)

/-- `main` up to the start of the goroutine: `load()` into the empty map. -/
def Sys.start (disk : Disk) : Sys :=
  { store := { bookmarks := load disk ∅, needs_saving := false }, disk := disk,
    pending := none, captured := none, persisted := none, setsSinceCapture := 0,
    setsSincePersist := 0, writes := [] }

/-- One atomic step.  The loop is sequential: it enters its locked section only when it
holds no bytes, and it writes only the bytes it holds; a step out of turn changes
nothing. -/
def Sys.step (y : Sys) : Event → Sys
  | Event.set item time =>
    { y with store := y.store.set item time,
             setsSinceCapture := y.setsSinceCapture + 1,
             setsSincePersist := y.setsSincePersist + 1 }
  | Event.snapshot =>
    match y.pending with
    | some _ => y
    | none =>
      match (lockedSection y.store).1 with
      | some json =>
        { y with store := (lockedSection y.store).2.1, pending := some json,
                 captured := some y.store.bookmarks, setsSinceCapture := 0 }
      | none => { y with store := (lockedSection y.store).2.1 }
  | Event.write w =>
    match y.pending with
    | none => y
    | some json =>
      match w with
      | WriteOutcome.ok =>
        { y with disk := (writeOut w json).1, pending := none, persisted := y.captured,
                 setsSincePersist := y.setsSinceCapture, writes := y.writes ++ [json] }
      | WriteOutcome.fail _ =>
        { y with disk := (writeOut w json).1, pending := none,
                 writes := y.writes ++ [json] }

/-- A run: the steps in order. -/
def Sys.run (y : Sys) (es : List Event) : Sys := es.foldl Sys.step y

/-- A sequence of `Set` calls applied in order. -/
def applySets (s : Store) (calls : List (GoString × GoInt)) : Store :=
  calls.foldl (fun acc c => acc.set c.1 c.2) s

/-! ## Vocabulary of the properties -/

/-- The position given by the last call in `calls` that names `k`, if there is one. -/
def lastSet (calls : List (GoString × GoInt)) (k : GoString) : Option GoInt :=
  (calls.reverse.find? (fun c => decide (c.1 = k))).map Prod.snd

/-- A form value without its optional leading sign. -/
def unsignedPart (t : GoString) : GoString :=
  match t with
  | [] => []
  | c :: r => if c.val = 43 ∨ c.val = 45 then r else c :: r

/-- The number a run of decimal digits denotes. -/
def decimalValue (ds : List Byte) : Nat := ds.foldl (fun n c => n * 10 + (c.val - 48)) 0

/-- A decimal integer literal: an optional sign, then one or more digits and nothing else. -/
def isIntegerLiteral (t : GoString) : Bool :=
  !(unsignedPart t).isEmpty && (spanDigits (unsignedPart t)).2.isEmpty

/-! # Proofs -/

/-! ## The store -/

theorem get_set_same (s : Store) (item : GoString) (time : GoInt) :
    (s.set item time).get item = time := by
  simp [Store.get, Store.set]

theorem get_set_other (s : Store) (item other : GoString) (time : GoInt) (h : other ≠ item) :
    (s.set item time).get other = s.get other := by
  simp [Store.get, Store.set, AList.lookup_insert_ne h]

theorem applySets_snoc (s : Store) (calls : List (GoString × GoInt)) (c : GoString × GoInt) :
    applySets s (calls ++ [c]) = (applySets s calls).set c.1 c.2 := by
  simp [applySets, List.foldl_append]

theorem applySets_cons (s : Store) (calls : List (GoString × GoInt)) (c : GoString × GoInt) :
    applySets s (c :: calls) = applySets (s.set c.1 c.2) calls := rfl

theorem applySets_needs_saving (s : Store) (calls : List (GoString × GoInt)) (h : calls ≠ []) :
    (applySets s calls).needs_saving = true := by
  induction calls using List.reverseRecOn with
  | nil => exact absurd rfl h
  | append_singleton l c _ => rw [applySets_snoc]; rfl

/-- The position given by the last call that names `k`, if any. -/
theorem lookup_applySets (s : Store) (calls : List (GoString × GoInt)) (k : GoString) :
    (applySets s calls).bookmarks.lookup k =
      ((calls.reverse.find? (fun c => decide (c.1 = k))).map Prod.snd).orElse
        (fun _ => s.bookmarks.lookup k) := by
  induction calls using List.reverseRecOn with
  | nil => simp [applySets]
  | append_singleton l c ih =>
    rw [applySets_snoc]
    by_cases hk : c.1 = k
    · subst hk
      simp [Store.set, List.find?_cons]
    · have hk2 : k ≠ c.1 := fun h => hk h.symm
      simp [Store.set, List.find?_cons, hk, AList.lookup_insert_ne hk2, ih]

/-! ## The persistence loop and runs -/

theorem lockedSection_clean (s : Store) (h : s.needs_saving = false) :
    lockedSection s = (none, s, []) := by
  simp [lockedSection, h]

theorem lockedSection_dirty (s : Store) (h : s.needs_saving = true) :
    lockedSection s =
      (some (123 :: (encodeMembers 0 (sortedEntries s.bookmarks) ++ [125])),
        { s with needs_saving := false }, []) := by
  simp [lockedSection, h, jsonMarshal]

theorem flushCycle_clean (w : WriteOutcome) (s : Store) (disk : Disk)
    (h : s.needs_saving = false) :
    flushCycle w s disk = { store := s, disk := disk, writes := [], logged := [] } := by
  simp [flushCycle, lockedSection_clean s h]

theorem flushCycle_dirty_ok (s : Store) (disk : Disk) (h : s.needs_saving = true) :
    flushCycle WriteOutcome.ok s disk =
      { store := { s with needs_saving := false },
        disk := some (123 :: (encodeMembers 0 (sortedEntries s.bookmarks) ++ [125])),
        writes := [123 :: (encodeMembers 0 (sortedEntries s.bookmarks) ++ [125])],
        logged := [] } := by
  simp [flushCycle, lockedSection_dirty s h, writeOut]

theorem flushCycle_dirty_fail (s : Store) (disk left : Disk) (h : s.needs_saving = true) :
    flushCycle (WriteOutcome.fail left) s disk =
      { store := { s with needs_saving := false },
        disk := left,
        writes := [123 :: (encodeMembers 0 (sortedEntries s.bookmarks) ++ [125])],
        logged := ["Error writing"] } := by
  simp [flushCycle, lockedSection_dirty s h, writeOut]

theorem flushCycle_store (w : WriteOutcome) (s : Store) (disk : Disk) :
    (flushCycle w s disk).store = { s with needs_saving := false } := by
  cases hs : s.needs_saving
  · rw [flushCycle_clean w s disk hs]; cases s; simp_all
  · cases w
    · rw [flushCycle_dirty_ok s disk hs]
    · rw [flushCycle_dirty_fail s disk _ hs]

theorem flushCycle_writes (w : WriteOutcome) (s : Store) (disk : Disk) :
    (flushCycle w s disk).writes =
      if s.needs_saving then [123 :: (encodeMembers 0 (sortedEntries s.bookmarks) ++ [125])]
      else [] := by
  cases hs : s.needs_saving
  · rw [flushCycle_clean w s disk hs]; simp
  · cases w
    · rw [flushCycle_dirty_ok s disk hs]; simp
    · rw [flushCycle_dirty_fail s disk _ hs]; simp

theorem run_snoc (y : Sys) (es : List Event) (e : Event) :
    y.run (es ++ [e]) = (y.run es).step e := by
  simp [Sys.run, List.foldl_append]

/-- From a sleeping loop with something to save, a locked section and its write are one
pass of the loop body. -/
theorem snapshot_write_eq_flushCycle (y : Sys) (w : WriteOutcome) (hp : y.pending = none)
    (hd : y.store.needs_saving = true) :
    ((y.step Event.snapshot).step (Event.write w)).store = (flushCycle w y.store y.disk).store ∧
    ((y.step Event.snapshot).step (Event.write w)).disk = (flushCycle w y.store y.disk).disk ∧
    ((y.step Event.snapshot).step (Event.write w)).writes
      = y.writes ++ (flushCycle w y.store y.disk).writes ∧
    ((y.step Event.snapshot).step (Event.write w)).pending = none := by
  cases w with
  | ok =>
    rw [flushCycle_dirty_ok _ _ hd]
    simp [Sys.step, hp, lockedSection_dirty _ hd, writeOut]
  | fail left =>
    rw [flushCycle_dirty_fail _ _ _ hd]
    simp [Sys.step, hp, lockedSection_dirty _ hd, writeOut]

/-- With nothing to save the locked section changes nothing and leaves nothing to
write. -/
theorem snapshot_clean (y : Sys) (hd : y.store.needs_saving = false) :
    y.step Event.snapshot = y := by
  cases hp : y.pending with
  | some json => simp [Sys.step, hp]
  | none =>
    cases y
    simp_all [Sys.step, lockedSection_clean]

theorem write_idle (y : Sys) (w : WriteOutcome) (hp : y.pending = none) :
    y.step (Event.write w) = y := by
  simp [Sys.step, hp]

/-- Invariant of every run: the flag is set exactly when a `set` step came after the latest
locked section that took a snapshot; the `set` steps since that section are among those
since the latest persisted one; bytes are held only while some `set` is not yet persisted;
and with the flag clear the entries are those of the latest snapshot. -/
theorem run_invariant (disk0 : Disk) (es : List Event) :
    (((Sys.start disk0).run es).store.needs_saving = true ↔
        0 < ((Sys.start disk0).run es).setsSinceCapture) ∧
    (((Sys.start disk0).run es).setsSinceCapture ≤
        ((Sys.start disk0).run es).setsSincePersist) ∧
    (((Sys.start disk0).run es).pending = none ∨
        0 < ((Sys.start disk0).run es).setsSincePersist) ∧
    (((Sys.start disk0).run es).store.needs_saving = false →
        ((Sys.start disk0).run es).store.bookmarks =
          (((Sys.start disk0).run es).captured).getD (Sys.start disk0).store.bookmarks) := by
  induction es using List.reverseRecOn with
  | nil => simp [Sys.run, Sys.start]
  | append_singleton l e ih =>
    rw [run_snoc]
    generalize (Sys.start disk0).run l = y at ih
    obtain ⟨ih1, ih2, ih3, ih4⟩ := ih
    cases e with
    | set item time =>
      simp only [Sys.step, Store.set]
      exact ⟨by simp, by omega, Or.inr (by omega), by simp⟩
    | snapshot =>
      cases hs : y.store.needs_saving with
      | false =>
        rw [snapshot_clean y hs]
        exact ⟨ih1, ih2, ih3, ih4⟩
      | true =>
        cases hp : y.pending with
        | some json =>
          rw [hp] at ih3
          simp only [Sys.step, hp]
          exact ⟨ih1, ih2, ih3, ih4⟩
        | none =>
          have h0 := ih1.mp hs
          simp only [Sys.step, hp, lockedSection_dirty _ hs]
          refine ⟨by simp, by omega, Or.inr (by omega), by simp⟩
    | write w =>
      cases hp : y.pending with
      | none =>
        rw [write_idle y w hp]
        exact ⟨ih1, ih2, ih3, ih4⟩
      | some json =>
        cases w with
        | ok =>
          simp only [Sys.step, hp]
          exact ⟨ih1, Nat.le_refl _, Or.inl trivial, ih4⟩
        | fail left =>
          simp only [Sys.step, hp]
          exact ⟨ih1, ih2, Or.inl trivial, ih4⟩

theorem lookup_applySets_absent (s : Store) (calls : List (GoString × GoInt)) (k : GoString)
    (h : ∀ c ∈ calls, c.1 ≠ k) :
    (applySets s calls).bookmarks.lookup k = s.bookmarks.lookup k := by
  rw [lookup_applySets]
  have : calls.reverse.find? (fun c => decide (c.1 = k)) = none := by
    simp only [List.find?_eq_none, List.mem_reverse, decide_eq_true_eq]
    exact h
  simp [this]

theorem lookup_applySets_nodup (calls : List (GoString × GoInt)) :
    ∀ (s : Store) (c : GoString × GoInt), (calls.map Prod.fst).Nodup → c ∈ calls →
      (applySets s calls).bookmarks.lookup c.1 = some c.2 := by
  induction calls with
  | nil => intro s c _ h; cases h
  | cons d rest ih =>
    intro s c hd hc
    rw [applySets_cons]
    rw [List.map_cons, List.nodup_cons] at hd
    rcases List.mem_cons.mp hc with h | h
    · subst h
      rw [lookup_applySets_absent]
      · simp [Store.set]
      · intro e he heq
        exact hd.1 (heq ▸ List.mem_map_of_mem Prod.fst he)
    · exact ih _ c hd.2 h

theorem member_infix_encodeMembers (e : Sigma (fun _ : GoString => GoInt))
    (l : List (Sigma (fun _ : GoString => GoInt))) :
    ∀ i : Nat, e ∈ l → (appendString e.1 ++ 58 :: AppendInt e.2) <:+: encodeMembers i l := by
  induction l with
  | nil => intro i h; cases h
  | cons d rest ih =>
    intro i h
    rcases List.mem_cons.mp h with h | h
    · subst h
      refine ⟨if i > 0 then [44] else [], encodeMembers (i + 1) rest, ?_⟩
      simp [encodeMembers]
    · obtain ⟨a, b, hab⟩ := ih (i + 1) h
      refine ⟨(if i > 0 then [44] else []) ++ appendString d.1 ++ 58 :: AppendInt d.2 ++ a, b, ?_⟩
      simp only [encodeMembers, ← hab]
      simp [List.append_assoc]

theorem member_infix_marshal (m : Bookmarks) (k : GoString) (v : GoInt)
    (h : m.lookup k = some v) :
    (appendString k ++ 58 :: AppendInt v) <:+:
      (123 :: (encodeMembers 0 (sortedEntries m) ++ [125])) := by
  have hmem : (⟨k, v⟩ : Sigma (fun _ : GoString => GoInt)) ∈ sortedEntries m := by
    have : (⟨k, v⟩ : Sigma (fun _ : GoString => GoInt)) ∈ m.entries := AList.mem_lookup_iff.mp h
    exact (List.perm_insertionSort _ _).symm.subset this
  obtain ⟨a, b, hab⟩ := member_infix_encodeMembers ⟨k, v⟩ _ 0 hmem
  refine ⟨123 :: a, b ++ [125], ?_⟩
  simp only [← hab]
  simp [List.append_assoc]


/-! ## strconv.Atoi on malformed input -/

theorem spanDigits_append (l : List Byte) : (spanDigits l).1 ++ (spanDigits l).2 = l := by
  induction l with
  | nil => rfl
  | cons c rest ih =>
    unfold spanDigits
    split
    · simp [ih]
    · simp

theorem spanDigits_digits (l : List Byte) : ∀ d ∈ (spanDigits l).1, 48 ≤ d.val ∧ d.val ≤ 57 := by
  induction l with
  | nil => intro d h; simp [spanDigits] at h
  | cons c rest ih =>
    intro d h
    unfold spanDigits at h
    split at h
    · rcases List.mem_cons.mp h with h | h
      · subst h; assumption
      · exact ih d h
    · simp at h

theorem spanDigits_rest (l : List Byte) :
    (spanDigits l).2 = [] ∨ ∃ c r, (spanDigits l).2 = c :: r ∧ ¬ (48 ≤ c.val ∧ c.val ≤ 57) := by
  induction l with
  | nil => left; rfl
  | cons c rest ih =>
    unfold spanDigits
    split
    · exact ih
    · right; exact ⟨c, rest, rfl, by assumption⟩

theorem foldl_decimal_ge (ds : List Byte) :
    ∀ n : Nat, n ≤ ds.foldl (fun n c => n * 10 + (c.val - 48)) n := by
  induction ds with
  | nil => intro n; exact Nat.le_refl _
  | cons d ds ih =>
    intro n
    have := ih (n * 10 + (d.val - 48))
    simp only [List.foldl_cons]
    omega

theorem parseUintLoop_nondigit (ds : List Byte) (c : Byte) (rest : List Byte)
    (hc : ¬ (48 ≤ c.val ∧ c.val ≤ 57)) :
    ∀ n : Nat, (∀ d ∈ ds, 48 ≤ d.val ∧ d.val ≤ 57) →
      ds.foldl (fun n c => n * 10 + (c.val - 48)) n ≤ 18446744073709551615 →
      parseUintLoop (ds ++ c :: rest) n = (0, some NumError.ErrSyntax) := by
  induction ds with
  | nil =>
    intro n _ _
    simp only [List.nil_append, parseUintLoop, hc, if_false]
    split
    · rfl
    · split
      · rfl
      · rename_i d hd hge
        split at hd
        · simp only [Option.some.injEq] at hd; omega
        · cases hd
  | cons d ds ih =>
    intro n hds hle
    have hd := hds d (List.mem_cons_self _ _)
    simp only [List.foldl_cons] at hle
    have hge := foldl_decimal_ge ds (n * 10 + (d.val - 48))
    have hrec := ih (n * 10 + (d.val - 48)) (fun x hx => hds x (List.mem_cons_of_mem _ hx)) hle
    simp only [List.cons_append, parseUintLoop, hd, and_self, if_true]
    have h1 : ¬ (d.val - 48 ≥ 10) := by omega
    have h2 : ¬ (n ≥ cutoff10) := by unfold cutoff10; omega
    have h3 : n * 10 % 18446744073709551616 = n * 10 := Nat.mod_eq_of_lt (by omega)
    have h4 : (n * 10 + (d.val - 48)) % 18446744073709551616 = n * 10 + (d.val - 48) :=
      Nat.mod_eq_of_lt (by omega)
    simp only [h1, h2, h3, h4, if_false, maxUint64]
    rw [if_neg (by omega)]
    exact hrec

theorem atoiFast_nondigit (ds : List Byte) (c : Byte) (rest : List Byte)
    (hc : ¬ (48 ≤ c.val ∧ c.val ≤ 57)) :
    ∀ n : Int, (∀ d ∈ ds, 48 ≤ d.val ∧ d.val ≤ 57) → atoiFast (ds ++ c :: rest) n = none := by
  induction ds with
  | nil =>
    intro n _
    simp only [List.nil_append, atoiFast]
    rw [if_pos (by omega)]
  | cons d ds ih =>
    intro n hds
    have hd := hds d (List.mem_cons_self _ _)
    simp only [List.cons_append, atoiFast]
    rw [if_neg (by omega)]
    exact ih _ (fun x hx => hds x (List.mem_cons_of_mem _ hx))

theorem wrap_zero : GoInt.wrap 0 = GoInt.zero := by decide

theorem body_split (b : GoString) (h : (spanDigits b).2 ≠ []) :
    ∃ ds c rest, b = ds ++ c :: rest ∧ (∀ d ∈ ds, 48 ≤ d.val ∧ d.val ≤ 57) ∧
      ¬ (48 ≤ c.val ∧ c.val ≤ 57) ∧ ds = (spanDigits b).1 := by
  rcases spanDigits_rest b with h0 | ⟨c, r, hr, hc⟩
  · exact absurd h0 h
  · refine ⟨(spanDigits b).1, c, r, ?_, spanDigits_digits b, hc, rfl⟩
    rw [← hr, spanDigits_append]

theorem ParseUint_malformed (b : GoString)
    (h1 : b = [] ∨ (spanDigits b).2 ≠ [])
    (h2 : decimalValue (spanDigits b).1 ≤ 18446744073709551615) :
    ParseUint b = (0, some NumError.ErrSyntax) := by
  unfold ParseUint
  by_cases hb : b = []
  · simp [hb]
  · rw [if_neg hb]
    have hne : (spanDigits b).2 ≠ [] := by
      rcases h1 with h | h
      · exact absurd h hb
      · exact h
    obtain ⟨ds, c, rest, hsplit, hds, hc, hdef⟩ := body_split b hne
    rw [hsplit]
    apply parseUintLoop_nondigit ds c rest hc 0 hds
    rw [hdef]
    exact h2

theorem atoiFast_malformed (b : GoString) (h : (spanDigits b).2 ≠ []) :
    atoiFast b 0 = none := by
  obtain ⟨ds, c, rest, hsplit, hds, hc, _⟩ := body_split b h
  rw [hsplit]
  exact atoiFast_nondigit ds c rest hc 0 hds

theorem Atoi_malformed (t : GoString) (h1 : isIntegerLiteral t = false)
    (h2 : decimalValue (spanDigits (unsignedPart t)).1 ≤ 18446744073709551615) :
    Atoi t = (GoInt.zero, some NumError.ErrSyntax) := by
  have h1' : unsignedPart t = [] ∨ (spanDigits (unsignedPart t)).2 ≠ [] := by
    simp only [isIntegerLiteral, Bool.and_eq_false_imp, Bool.not_eq_true', List.isEmpty_eq_true,
      Bool.not_eq_eq_eq_not, Bool.not_true, Bool.not_eq_false', List.isEmpty_eq_false] at h1
    by_cases hb : unsignedPart t = []
    · exact Or.inl hb
    · right
      intro hnil
      have := h1 (by simpa using hb)
      simp [hnil] at this
  cases t with
  | nil =>
    simp [Atoi, ParseInt, wrap_zero]
  | cons c r =>
    by_cases hs : c.val = 43 ∨ c.val = 45
    · have hbody : unsignedPart (c :: r) = r := by simp [unsignedPart, hs]
      rw [hbody] at h1' h2
      have hsigned : (c.val == 45 || c.val == 43) = true := by
        rcases hs with h | h <;> simp [h]
      unfold Atoi
      split
      · simp only [hsigned, Bool.true_and, if_true]
        by_cases hr : r = []
        · simp [hr]
        · have hlen : ¬ (r.length < 1) := by
            cases r with
            | nil => exact absurd rfl hr
            | cons _ _ => simp
          have hne : (spanDigits r).2 ≠ [] := by
            rcases h1' with h | h
            · exact absurd h hr
            · exact h
          simp [hlen, atoiFast_malformed r hne]
      · have hp : ParseInt (c :: r) = (0, some NumError.ErrSyntax) := by
          simp only [ParseInt, hs, if_true, ParseUint_malformed r h1' h2]
        simp [hp, wrap_zero]
    · have hbody : unsignedPart (c :: r) = c :: r := by simp [unsignedPart, hs]
      rw [hbody] at h1' h2
      have hne : (spanDigits (c :: r)).2 ≠ [] := by
        rcases h1' with h | h
        · cases h
        · exact h
      have hsigned : (c.val == 45 || c.val == 43) = false := by
        simp only [Bool.or_eq_false_iff, beq_eq_false_iff_ne, ne_eq]
        omega
      unfold Atoi
      split
      · simp [hsigned, atoiFast_malformed (c :: r) hne]
      · have hp : ParseInt (c :: r) = (0, some NumError.ErrSyntax) := by
          simp only [ParseInt, hs, if_false, ParseUint_malformed (c :: r) h1' h2]
          simp
        simp [hp, wrap_zero]


/-! ## strconv.Atoi on digits beyond 64 bits -/

theorem parseUintLoop_overflow (ds rest : List Byte) :
    ∀ n : Nat, n ≤ 18446744073709551615 → (∀ d ∈ ds, 48 ≤ d.val ∧ d.val ≤ 57) →
      18446744073709551615 < ds.foldl (fun n c => n * 10 + (c.val - 48)) n →
      parseUintLoop (ds ++ rest) n = (maxUint64, some NumError.ErrRange) := by
  induction ds with
  | nil =>
    intro n hn _ h
    simp only [List.foldl_nil] at h
    omega
  | cons d ds ih =>
    intro n hn hds h
    have hd := hds d (List.mem_cons_self _ _)
    simp only [List.foldl_cons] at h
    simp only [List.cons_append, parseUintLoop, hd, and_self, if_true]
    rw [if_neg (by omega)]
    by_cases hc : n ≥ cutoff10
    · rw [if_pos hc]
    · rw [if_neg hc]
      unfold cutoff10 at hc
      have h3 : n * 10 % 18446744073709551616 = n * 10 := Nat.mod_eq_of_lt (by omega)
      simp only [h3, maxUint64]
      by_cases hov : n * 10 + (d.val - 48) ≥ 18446744073709551616
      · rw [if_pos (by omega)]
      · have h4 : (n * 10 + (d.val - 48)) % 18446744073709551616 = n * 10 + (d.val - 48) :=
          Nat.mod_eq_of_lt (by omega)
        rw [h4, if_neg (by omega)]
        exact ih _ (by omega) (fun x hx => hds x (List.mem_cons_of_mem _ hx)) h

theorem foldl_decimal_lt_pow (ds : List Byte) :
    ∀ n : Nat, (∀ d ∈ ds, 48 ≤ d.val ∧ d.val ≤ 57) →
      ds.foldl (fun n c => n * 10 + (c.val - 48)) n + 1 ≤ (n + 1) * 10 ^ ds.length := by
  induction ds with
  | nil => intro n _; simp
  | cons d ds ih =>
    intro n hds
    have hd := hds d (List.mem_cons_self _ _)
    have h1 := ih (n * 10 + (d.val - 48)) (fun x hx => hds x (List.mem_cons_of_mem _ hx))
    have h2 : (n * 10 + (d.val - 48) + 1) * 10 ^ ds.length ≤ ((n + 1) * 10) * 10 ^ ds.length :=
      Nat.mul_le_mul_right _ (by omega)
    simp only [List.foldl_cons, List.length_cons, pow_succ]
    calc _ ≤ (n * 10 + (d.val - 48) + 1) * 10 ^ ds.length := h1
      _ ≤ ((n + 1) * 10) * 10 ^ ds.length := h2
      _ = (n + 1) * (10 ^ ds.length * 10) := by ring

theorem overflow_length (b : GoString)
    (h : 18446744073709551615 < decimalValue (spanDigits b).1) : 19 ≤ b.length := by
  have hlen : (spanDigits b).1.length ≤ b.length := by
    have := congrArg List.length (spanDigits_append b)
    rw [List.length_append] at this
    omega
  by_contra hlt
  have h18 : (spanDigits b).1.length ≤ 18 := by omega
  have hp : 10 ^ (spanDigits b).1.length ≤ 10 ^ 18 := Nat.pow_le_pow_right (by decide) h18
  have := foldl_decimal_lt_pow (spanDigits b).1 0 (spanDigits_digits b)
  simp only [decimalValue] at h
  norm_num at hp this
  omega

theorem ParseUint_overflow (b : GoString)
    (h : 18446744073709551615 < decimalValue (spanDigits b).1) :
    ParseUint b = (maxUint64, some NumError.ErrRange) := by
  have hb : b ≠ [] := by
    intro hb
    subst hb
    simp [spanDigits, decimalValue] at h
  unfold ParseUint
  rw [if_neg hb]
  have := parseUintLoop_overflow (spanDigits b).1 (spanDigits b).2 0 (by omega)
    (spanDigits_digits b) h
  rwa [spanDigits_append] at this

/-- When the digits at the head of the `time` value (after its sign) denote 2^64 or more,
`Atoi` returns a bound of `int`, never `0`: the smallest `int` after a `-`, else the
largest. -/
theorem Atoi_overflow (t : GoString)
    (h : 18446744073709551615 < decimalValue (spanDigits (unsignedPart t)).1) :
    Atoi t = (GoInt.wrap (if t.head? = some 45 then -9223372036854775808
      else 9223372036854775807), some NumError.ErrRange) := by
  cases t with
  | nil => simp [unsignedPart, spanDigits, decimalValue] at h
  | cons c r =>
    by_cases hs : c.val = 43 ∨ c.val = 45
    · have hbody : unsignedPart (c :: r) = r := by simp [unsignedPart, hs]
      rw [hbody] at h
      have hl := overflow_length r h
      have hpu := ParseUint_overflow r h
      unfold Atoi
      rw [if_neg (by simp only [List.length_cons]; omega)]
      rcases hs with h43 | h45
      · have hc : c = 43 := Fin.ext h43
        subst hc
        simp +decide [ParseInt, hpu, maxUint64]
      · have hc : c = 45 := Fin.ext h45
        subst hc
        simp +decide [ParseInt, hpu, maxUint64]
    · have hbody : unsignedPart (c :: r) = c :: r := by simp [unsignedPart, hs]
      rw [hbody] at h
      have hl := overflow_length (c :: r) h
      have hpu := ParseUint_overflow (c :: r) h
      have h45 : (c.val == 45) = false := by
        simp only [beq_eq_false_iff_ne, ne_eq]; omega
      have hne : ¬ (c = 45) := fun hc => hs (Or.inr (by rw [hc]; rfl))
      unfold Atoi
      rw [if_neg (by omega)]
      simp +decide [ParseInt, hpu, maxUint64, h45, hs, hne]

/-! ## UTF-8 decoding and encoding -/

theorem toByte_val (b : Byte) : toByte b.val = b := by
  apply Fin.ext
  simp only [toByte]
  omega

theorem toByte_eq (n : Nat) (b : Byte) (h : n = b.val) : toByte n = b := by
  subst h; exact toByte_val b

theorem first_cases (x sz lo hi : Nat) (h : first x = some (sz, lo, hi)) :
    (sz = 2 ∧ 194 ≤ x ∧ x < 224 ∧ lo = 128 ∧ hi = 191) ∨
    (sz = 3 ∧ 224 ≤ x ∧ x < 240 ∧ 128 ≤ lo ∧ hi ≤ 191 ∧ (x ≠ 224 ∨ lo = 160) ∧ (x ≠ 237 ∨ hi = 159)) ∨
    (sz = 4 ∧ 240 ≤ x ∧ x < 245 ∧ 128 ≤ lo ∧ hi ≤ 191 ∧ (x ≠ 240 ∨ lo = 144) ∧ (x ≠ 244 ∨ hi = 143)) := by
  unfold first at h
  repeat' split at h
  all_goals first
    | (cases h; omega)
    | cases h

/-- A well-formed multi-byte sequence. -/
theorem DecodeRune_valid (b : Byte) (r : List Byte) (hb : ¬ b.val < 128)
    (hv : ¬ ((DecodeRune (b :: r)).1 = RuneError ∧ (DecodeRune (b :: r)).2 = 1)) :
    1 ≤ (DecodeRune (b :: r)).2 ∧ (DecodeRune (b :: r)).2 ≤ (b :: r).length ∧
    128 ≤ (DecodeRune (b :: r)).1 ∧
    EncodeRune (DecodeRune (b :: r)).1 = (b :: r).take (DecodeRune (b :: r)).2 ∧
    ∀ t, DecodeRune ((b :: r).take (DecodeRune (b :: r)).2 ++ t) = DecodeRune (b :: r) := by
  unfold DecodeRune at hv ⊢
  simp only [hb, if_false] at hv ⊢
  cases hf : first b.val with
  | none => simp [hf, RuneError] at hv
  | some p =>
    obtain ⟨sz, lo, hi⟩ := p
    simp only [hf] at hv ⊢
    have hcases := first_cases _ _ _ _ hf
    cases r with
    | nil => simp [RuneError] at hv
    | cons s1 t1 =>
      simp only at hv ⊢
      by_cases h1 : s1.val < lo ∨ hi < s1.val
      · simp [h1, RuneError] at hv
      · simp only [h1, if_false] at hv ⊢
        by_cases hs2 : sz ≤ 2
        · simp only [hs2, if_true]
          have : 194 ≤ b.val ∧ b.val < 224 ∧ lo = 128 ∧ hi = 191 := by omega
          refine ⟨by omega, by simp, by omega, ?_, ?_⟩
          · simp only [EncodeRune]
            rw [if_neg (by omega), if_pos (by omega)]
            simp only [List.take_succ_cons, List.take_zero]
            congr 1
            · apply toByte_eq; omega
            · congr 1; apply toByte_eq; omega
          · intro t
            simp only [List.take_succ_cons, List.take_zero, List.cons_append, List.nil_append,
              hb, if_false, hf, h1, hs2, if_true]
        · simp only [hs2, if_false] at hv ⊢
          cases t1 with
          | nil => simp [RuneError] at hv
          | cons s2 t2 =>
            simp only at hv ⊢
            by_cases h2 : s2.val < 128 ∨ 191 < s2.val
            · simp [h2, RuneError] at hv
            · simp only [h2, if_false] at hv ⊢
              by_cases hs3 : sz ≤ 3
              · simp only [hs3, if_true]
                have : 224 ≤ b.val ∧ b.val < 240 ∧ 128 ≤ lo ∧ hi ≤ 191 ∧ (b.val ≠ 224 ∨ lo = 160)
                    ∧ (b.val ≠ 237 ∨ hi = 159) := by omega
                refine ⟨by omega, by simp, by omega, ?_, ?_⟩
                · simp only [EncodeRune]
                  rw [if_neg (by omega), if_neg (by omega), if_neg (by omega), if_pos (by omega)]
                  simp only [List.take_succ_cons, List.take_zero]
                  congr 1
                  · apply toByte_eq; omega
                  · congr 1
                    · apply toByte_eq; omega
                    · congr 1; apply toByte_eq; omega
                · intro t
                  simp only [List.take_succ_cons, List.take_zero, List.cons_append,
                    List.nil_append, hb, if_false, hf, h1, hs2, h2, hs3, if_true]
              · simp only [hs3, if_false] at hv ⊢
                cases t2 with
                | nil => simp [RuneError] at hv
                | cons s3 t3 =>
                  simp only at hv ⊢
                  by_cases h3 : s3.val < 128 ∨ 191 < s3.val
                  · simp [h3, RuneError] at hv
                  · simp only [h3, if_false] at hv ⊢
                    have : 240 ≤ b.val ∧ b.val < 245 ∧ 128 ≤ lo ∧ hi ≤ 191 ∧
                        (b.val ≠ 240 ∨ lo = 144) ∧ (b.val ≠ 244 ∨ hi = 143) := by omega
                    refine ⟨by omega, by simp, by omega, ?_, ?_⟩
                    · simp only [EncodeRune]
                      rw [if_neg (by omega), if_neg (by omega), if_neg (by omega),
                        if_neg (by omega)]
                      simp only [List.take_succ_cons, List.take_zero]
                      congr 1
                      · apply toByte_eq; omega
                      · congr 1
                        · apply toByte_eq; omega
                        · congr 1
                          · apply toByte_eq; omega
                          · congr 1; apply toByte_eq; omega
                    · intro t
                      simp only [List.take_succ_cons, List.take_zero, List.cons_append,
                        List.nil_append, hb, if_false, hf, h1, hs2, h2, hs3, h3]

/-! ## Reading back a written string -/

theorem hexVal_hexDigit (x : Nat) (h : x < 16) : hexVal (hexDigit x) = some x := by
  interval_cases x <;> rfl

theorem unquoteLoop_quote (f : Nat) (rest : List Byte) :
    unquoteLoop (f + 1) (34 :: rest) = some ([], rest) := by
  simp +decide [unquoteLoop]

theorem unquoteLoop_plain (f : Nat) (c : Byte) (rest : List Byte)
    (h1 : 32 ≤ c.val) (h2 : c.val < 128) (h3 : c.val ≠ 34) (h4 : c.val ≠ 92) :
    unquoteLoop (f + 1) (c :: rest) = (unquoteLoop f rest).map (fun p => (c :: p.1, p.2)) := by
  simp only [unquoteLoop, h3, h4, if_false]
  rw [if_neg (by omega), if_pos h2]

theorem unquoteLoop_multi (f : Nat) (c : Byte) (rest : List Byte) (h : 128 ≤ c.val) :
    unquoteLoop (f + 1) (c :: rest) =
      (unquoteLoop f ((c :: rest).drop (DecodeRune (c :: rest)).2)).map
        (fun p => (EncodeRune (DecodeRune (c :: rest)).1 ++ p.1, p.2)) := by
  simp only [unquoteLoop]
  rw [if_neg (by omega), if_neg (by omega), if_neg (by omega), if_neg (by omega)]

theorem unquoteLoop_u4 (f : Nat) (h1 h2 h3 h4 : Byte) (T : List Byte) (a b c d : Nat)
    (e1 : hexVal h1 = some a) (e2 : hexVal h2 = some b) (e3 : hexVal h3 = some c)
    (e4 : hexVal h4 = some d)
    (hs : ¬ (55296 ≤ ((a * 16 + b) * 16 + c) * 16 + d ∧ ((a * 16 + b) * 16 + c) * 16 + d < 57344)) :
    unquoteLoop (f + 1) (92 :: 117 :: h1 :: h2 :: h3 :: h4 :: T) =
      (unquoteLoop f T).map
        (fun p => (EncodeRune (((a * 16 + b) * 16 + c) * 16 + d) ++ p.1, p.2)) := by
  simp +decide [unquoteLoop, getu4, e1, e2, e3, e4, hs]

theorem escapeAscii_length (b : Nat) : 2 ≤ (escapeAscii b).length := by
  unfold escapeAscii
  repeat' split
  all_goals simp

theorem unquoteLoop_escape (f : Nat) (b : Byte) (T : List Byte) (hb : b.val < 128)
    (hs : htmlSafe b.val = false) :
    unquoteLoop (f + 1) (escapeAscii b.val ++ T) =
      (unquoteLoop f T).map (fun p => (b :: p.1, p.2)) := by
  unfold escapeAscii
  split
  · rename_i h
    have hb' : toByte b.val = b := toByte_val b
    rw [hb']
    rcases h with h | h
    · have : b = 92 := Fin.ext h
      subst this
      simp +decide [unquoteLoop, simpleEscape]
    · have : b = 34 := Fin.ext h
      subst this
      simp +decide [unquoteLoop, simpleEscape]
  · split
    · rename_i h
      have : b = 8 := Fin.ext h
      subst this
      simp +decide [unquoteLoop, simpleEscape]
    · split
      · rename_i h
        have : b = 12 := Fin.ext h
        subst this
        simp +decide [unquoteLoop, simpleEscape]
      · split
        · rename_i h
          have : b = 10 := Fin.ext h
          subst this
          simp +decide [unquoteLoop, simpleEscape]
        · split
          · rename_i h
            have : b = 13 := Fin.ext h
            subst this
            simp +decide [unquoteLoop, simpleEscape]
          · split
            · rename_i h
              have : b = 9 := Fin.ext h
              subst this
              simp +decide [unquoteLoop, simpleEscape]
            · have e1 : hexVal 48 = some 0 := rfl
              have e3 := hexVal_hexDigit (b.val / 16) (by omega)
              have e4 := hexVal_hexDigit (b.val % 16) (by omega)
              have hv : ((0 * 16 + 0) * 16 + b.val / 16) * 16 + b.val % 16 = b.val := by omega
              have := unquoteLoop_u4 f 48 48 (hexDigit (b.val / 16)) (hexDigit (b.val % 16)) T
                0 0 (b.val / 16) (b.val % 16) e1 e1 e3 e4 (by omega)
              rw [hv] at this
              simp only [List.cons_append, List.nil_append]
              rw [this]
              have he : EncodeRune b.val = [b] := by
                simp only [EncodeRune]
                rw [if_pos (by omega), toByte_val]
              simp [he]

theorem appendStringLoop_nil (f : Nat) : appendStringLoop f [] = [] := by
  cases f <;> rfl

theorem DecodeRune_ascii (b : Byte) (r : List Byte) (h : b.val < 128) :
    DecodeRune (b :: r) = (b.val, 1) := by
  simp [DecodeRune, h]

theorem validUTF8_multi (n : Nat) (b : Byte) (r : List Byte)
    (hv : validUTF8 (n + 1) (b :: r) = true) :
    ¬ ((DecodeRune (b :: r)).1 = RuneError ∧ (DecodeRune (b :: r)).2 = 1) ∧
    validUTF8 n ((b :: r).drop (DecodeRune (b :: r)).2) = true := by
  simp only [validUTF8] at hv
  split at hv
  · cases hv
  · rename_i h
    exact ⟨h, hv⟩

theorem coerceLoop_nil (f : Nat) : coerceLoop f [] = [] := by
  cases f <;> rfl

theorem unquoteLoop_fffd (f : Nat) (T : List Byte) :
    unquoteLoop (f + 1) ([92, 117, 102, 102, 102, 100] ++ T) =
      (unquoteLoop f T).map (fun p => ([239, 191, 189] ++ p.1, p.2)) := by
  have e15 : hexVal 102 = some 15 := rfl
  have e13 : hexVal 100 = some 13 := rfl
  have := unquoteLoop_u4 f 102 102 102 100 T 15 15 15 13 e15 e15 e15 e13 (by omega)
  simp only [List.cons_append, List.nil_append]
  rw [this]
  rfl

/-- What `unquote` returns for a string written by `appendString`, valid UTF-8 or not. -/
theorem unquote_appendString_coerce (n : Nat) :
    ∀ k : GoString, k.length ≤ n →
      ∀ (f1 f2 : Nat) (rest : List Byte), k.length ≤ f1 → (appendStringLoop f1 k).length < f2 →
        unquoteLoop f2 (appendStringLoop f1 k ++ 34 :: rest) = some (coerceLoop f1 k, rest) := by
  induction n with
  | zero =>
    intro k hk f1 f2 rest _ hf2
    have : k = [] := List.length_eq_zero.mp (by omega)
    subst this
    rw [appendStringLoop_nil] at hf2 ⊢
    rw [coerceLoop_nil]
    obtain ⟨f, rfl⟩ : ∃ f, f2 = f + 1 := ⟨f2 - 1, by simp at hf2; omega⟩
    exact unquoteLoop_quote f rest
  | succ n ih =>
    intro k hk f1 f2 rest hf1 hf2
    cases k with
    | nil =>
      rw [appendStringLoop_nil] at hf2 ⊢
      rw [coerceLoop_nil]
      obtain ⟨f, rfl⟩ : ∃ f, f2 = f + 1 := ⟨f2 - 1, by simp at hf2; omega⟩
      exact unquoteLoop_quote f rest
    | cons b r =>
      obtain ⟨g1, rfl⟩ : ∃ f, f1 = f + 1 := ⟨f1 - 1, by simp at hf1; omega⟩
      obtain ⟨g2, rfl⟩ : ∃ f, f2 = f + 1 := ⟨f2 - 1, by omega⟩
      simp only [List.length_cons] at hk hf1
      by_cases hb : b.val < 128
      · have hco : coerceLoop (g1 + 1) (b :: r) = b :: coerceLoop g1 r := by
          simp only [coerceLoop, DecodeRune_ascii b r hb, RuneError]
          rw [if_neg (by omega)]
          simp
        rw [hco]
        by_cases hs : htmlSafe b.val = true
        · simp only [appendStringLoop, hb, hs, if_true] at hf2 ⊢
          simp only [List.length_cons] at hf2
          have hs' := hs
          simp only [htmlSafe, decide_eq_true_eq] at hs'
          rw [List.cons_append, unquoteLoop_plain g2 b _ (by omega) hb (by omega) (by omega)]
          rw [ih r (by omega) g1 g2 rest (by omega) (by omega)]
          rfl
        · have hs0 : htmlSafe b.val = false := by simpa using hs
          simp only [appendStringLoop, hb, hs0, if_true] at hf2 ⊢
          simp only [Bool.false_eq_true, if_false] at hf2 ⊢
          rw [List.length_append] at hf2
          have hlen := escapeAscii_length b.val
          rw [List.append_assoc, unquoteLoop_escape g2 b _ hb hs0]
          rw [ih r (by omega) g1 g2 rest (by omega) (by omega)]
          rfl
      · by_cases hne : (DecodeRune (b :: r)).1 = RuneError ∧ (DecodeRune (b :: r)).2 = 1
        · simp only [appendStringLoop, coerceLoop, hb, if_false, hne, and_self, if_true] at hf2 ⊢
          rw [List.length_append] at hf2
          simp only [List.length_cons, List.length_nil] at hf2
          rw [List.append_assoc, unquoteLoop_fffd g2]
          rw [ih r (by omega) g1 g2 rest (by omega) (by omega)]
          rfl
        · obtain ⟨h1, h2, h3, h4, h5⟩ := DecodeRune_valid b r hb hne
          have hdl : ((b :: r).drop (DecodeRune (b :: r)).2).length ≤ n := by
            rw [List.length_drop]; simp only [List.length_cons]; omega
          have hdl1 : ((b :: r).drop (DecodeRune (b :: r)).2).length ≤ g1 := by
            rw [List.length_drop]; simp only [List.length_cons]; omega
          have hco : coerceLoop (g1 + 1) (b :: r) = (b :: r).take (DecodeRune (b :: r)).2 ++
              coerceLoop g1 ((b :: r).drop (DecodeRune (b :: r)).2) := by
            simp only [coerceLoop, hne, if_false]
          rw [hco]
          simp only [appendStringLoop, hb, if_false, hne] at hf2 ⊢
          split at hf2
          · rename_i hu
            rw [if_pos hu]
            simp only [List.length_append, List.length_cons, List.length_nil] at hf2
            have e2 : hexVal 50 = some 2 := rfl
            have e0 : hexVal 48 = some 0 := rfl
            have e4 := hexVal_hexDigit ((DecodeRune (b :: r)).1 % 16) (by omega)
            have hval : ((2 * 16 + 0) * 16 + 2) * 16 + (DecodeRune (b :: r)).1 % 16
                = (DecodeRune (b :: r)).1 := by omega
            have hstep := unquoteLoop_u4 g2 50 48 50 (hexDigit ((DecodeRune (b :: r)).1 % 16))
              (appendStringLoop g1 ((b :: r).drop (DecodeRune (b :: r)).2) ++ 34 :: rest)
              2 0 2 ((DecodeRune (b :: r)).1 % 16) e2 e0 e2 e4 (by omega)
            rw [hval] at hstep
            simp only [List.cons_append, List.nil_append, List.append_assoc]
            rw [hstep, ih _ hdl g1 g2 rest hdl1 (by omega), h4]
            simp
          · rename_i hu
            rw [if_neg hu]
            rw [List.length_append] at hf2
            have htl : ((b :: r).take (DecodeRune (b :: r)).2).length
                = (DecodeRune (b :: r)).2 := by
              rw [List.length_take]; simp only [List.length_cons] at h2 ⊢; omega
            obtain ⟨x, xs, hx⟩ : ∃ x xs, (b :: r).take (DecodeRune (b :: r)).2 = x :: xs := by
              cases ht : (b :: r).take (DecodeRune (b :: r)).2 with
              | nil => rw [ht] at htl; simp at htl; omega
              | cons x xs => exact ⟨x, xs, rfl⟩
            have hxb : x = b := by
              have : (DecodeRune (b :: r)).2 = ((DecodeRune (b :: r)).2 - 1) + 1 := by omega
              rw [this, List.take_succ_cons] at hx
              exact (List.cons.inj hx).1.symm
            have hdec := h5
              (appendStringLoop g1 ((b :: r).drop (DecodeRune (b :: r)).2) ++ 34 :: rest)
            subst hxb
            rw [List.append_assoc]
            rw [hx] at hdec
            rw [List.cons_append] at hdec
            have hgoal : unquoteLoop (g2 + 1)
                (x :: (xs ++ (appendStringLoop g1 ((x :: r).drop (DecodeRune (x :: r)).2)
                  ++ 34 :: rest))) =
                some ((x :: r).take (DecodeRune (x :: r)).2 ++
                  coerceLoop g1 ((x :: r).drop (DecodeRune (x :: r)).2), rest) := by
              rw [unquoteLoop_multi g2 x _ (by omega), hdec]
              rw [← List.cons_append, ← hx]
              rw [List.drop_left' htl]
              rw [ih _ hdl g1 g2 rest hdl1 (by omega), h4]
              simp
            rw [hx] at hgoal ⊢
            exact hgoal

theorem coerceLoop_valid (n : Nat) :
    ∀ (k : GoString) (f : Nat), k.length ≤ n → k.length ≤ f → validUTF8 n k = true →
      coerceLoop f k = k := by
  induction n with
  | zero =>
    intro k f hk _ _
    have : k = [] := List.length_eq_zero.mp (by omega)
    subst this
    exact coerceLoop_nil f
  | succ n ih =>
    intro k f hk hf hv
    cases k with
    | nil => exact coerceLoop_nil f
    | cons b r =>
      obtain ⟨g, rfl⟩ : ∃ g, f = g + 1 := ⟨f - 1, by simp at hf; omega⟩
      obtain ⟨hne, hvd⟩ := validUTF8_multi n b r hv
      simp only [List.length_cons] at hk hf
      have hpos : 1 ≤ (DecodeRune (b :: r)).2 := by
        by_cases hb : b.val < 128
        · rw [DecodeRune_ascii b r hb]
        · exact (DecodeRune_valid b r hb hne).1
      have hdl : ((b :: r).drop (DecodeRune (b :: r)).2).length ≤ n := by
        rw [List.length_drop]; simp only [List.length_cons]; omega
      have hdl1 : ((b :: r).drop (DecodeRune (b :: r)).2).length ≤ g := by
        rw [List.length_drop]; simp only [List.length_cons]; omega
      simp only [coerceLoop, hne, if_false]
      rw [ih _ g hdl hdl1 hvd, List.take_append_drop]

theorem toValidUTF8_valid (k : GoString) (h : ValidString k = true) : toValidUTF8 k = k :=
  coerceLoop_valid k.length k k.length (Nat.le_refl _) (Nat.le_refl _) h

/-! ## Reading back a written number -/

theorem wrap_val (v : GoInt) : GoInt.wrap v.val = v := by
  apply Subtype.ext
  have := v.property
  simp only [GoInt.wrap]
  omega

theorem formatBits_acc (f : Nat) : ∀ (u : Nat) (acc : List Byte),
    formatBits f u acc = formatBits f u [] ++ acc := by
  induction f with
  | zero => intro u acc; rfl
  | succ f ih =>
    intro u acc
    simp only [formatBits]
    split
    · rw [ih (u / 10) (_ :: acc), ih (u / 10) [_]]
      simp
    · rfl

theorem formatBits_digits (f : Nat) : ∀ (u : Nat),
    ∀ x ∈ formatBits f u [], 48 ≤ x.val ∧ x.val ≤ 57 := by
  induction f with
  | zero => intro u x hx; simp [formatBits] at hx
  | succ f ih =>
    intro u x hx
    simp only [formatBits] at hx
    split at hx
    · rw [formatBits_acc] at hx
      rcases List.mem_append.mp hx with h | h
      · exact ih _ x h
      · simp only [List.mem_singleton] at h
        subst h
        simp only [toByte]
        omega
    · simp only [List.mem_singleton] at hx
      subst hx
      simp only [toByte]
      omega

theorem formatBits_head (f : Nat) : ∀ (u : Nat), 0 < u → u < 10 ^ f →
    ∃ d ds, formatBits f u [] = d :: ds ∧ 49 ≤ d.val ∧ d.val ≤ 57 := by
  induction f with
  | zero => intro u h0 h1; simp at h1; omega
  | succ f ih =>
    intro u h0 h1
    simp only [formatBits]
    split
    · have hlt : u / 10 < 10 ^ f := by
        rw [pow_succ] at h1
        omega
      obtain ⟨d, ds, hd, hr⟩ := ih (u / 10) (by omega) hlt
      rw [formatBits_acc, hd]
      exact ⟨d, ds ++ [toByte (48 + u % 10)], by simp, hr⟩
    · refine ⟨_, [], rfl, ?_⟩
      simp only [toByte]
      omega

theorem parseUintLoop_digit (d n : Nat) (hd : d < 10) (hn : n * 10 + d ≤ 18446744073709551615) :
    parseUintLoop [toByte (48 + d)] n = (n * 10 + d, none) := by
  have hv : (toByte (48 + d)).val = 48 + d := by simp only [toByte]; omega
  simp only [parseUintLoop, hv]
  rw [if_pos (by omega)]
  simp only
  rw [if_neg (by omega), if_neg (by unfold cutoff10; omega)]
  have h3 : n * 10 % 18446744073709551616 = n * 10 := Nat.mod_eq_of_lt (by omega)
  have h4 : (n * 10 + (48 + d - 48)) % 18446744073709551616 = n * 10 + d :=
    by rw [Nat.mod_eq_of_lt (by omega)]; omega
  simp only [h3, h4, maxUint64]
  rw [if_neg (by omega)]

theorem parseUintLoop_append (xs : List Byte) : ∀ (ys : List Byte) (n m : Nat),
    parseUintLoop xs n = (m, none) → parseUintLoop (xs ++ ys) n = parseUintLoop ys m := by
  induction xs with
  | nil =>
    intro ys n m h
    simp only [parseUintLoop, Prod.mk.injEq, and_true] at h
    subst h; rfl
  | cons c xs ih =>
    intro ys n m h
    simp only [List.cons_append, parseUintLoop] at h ⊢
    split at h
    · simp at h
    · split at h
      · simp at h
      · split at h
        · simp at h
        · split at h
          · simp at h
          · rename_i d hd h1 h2 h3
            simp only [hd, h1, h2, h3, if_false]
            exact ih ys _ m h

theorem parseUintLoop_formatBits (f : Nat) : ∀ (u : Nat), u < 10 ^ f →
    u ≤ 18446744073709551615 → parseUintLoop (formatBits f u []) 0 = (u, none) := by
  induction f with
  | zero =>
    intro u h _
    have : u = 0 := by simp at h; omega
    subst this; rfl
  | succ f ih =>
    intro u h hmax
    simp only [formatBits]
    split
    · have hlt : u / 10 < 10 ^ f := by
        rw [pow_succ] at h
        omega
      rw [formatBits_acc, parseUintLoop_append _ _ 0 (u / 10) (ih (u / 10) hlt (by omega))]
      rw [parseUintLoop_digit (u % 10) (u / 10) (by omega) (by omega)]
      congr 1
      omega
    · have := parseUintLoop_digit u 0 (by omega) (by omega)
      simpa using this

theorem spanDigits_of_digits (ds : List Byte) (c : Byte) (rest : List Byte)
    (hc : ¬ (48 ≤ c.val ∧ c.val ≤ 57)) (hds : ∀ d ∈ ds, 48 ≤ d.val ∧ d.val ≤ 57) :
    spanDigits (ds ++ c :: rest) = (ds, c :: rest) := by
  induction ds with
  | nil => simp [spanDigits, hc]
  | cons d ds ih =>
    have hd := hds d (List.mem_cons_self _ _)
    have := ih (fun x hx => hds x (List.mem_cons_of_mem _ hx))
    simp [spanDigits, hd, this]

theorem ParseInt_neg (t : List Byte) (u : Nat) (h : ParseUint t = (u, none))
    (hu : u ≤ 9223372036854775808) : ParseInt (45 :: t) = (-(u : Int), none) := by
  have h45 : ((45 : Byte).val == 45) = true := by decide
  have hs : ((45 : Byte).val = 43 ∨ (45 : Byte).val = 45) := by decide
  simp only [ParseInt, h45, if_pos hs, h]
  simp only [reduceCtorEq, if_false, Bool.not_true, Bool.false_and, Bool.false_eq_true,
    Bool.true_and, decide_eq_true_eq]
  rw [if_neg (by omega)]
  simp

theorem ParseInt_pos (d : Byte) (t : List Byte) (u : Nat) (hd : 48 ≤ d.val)
    (h : ParseUint (d :: t) = (u, none))
    (hu : u < 9223372036854775808) : ParseInt (d :: t) = ((u : Int), none) := by
  have h45 : (d.val == 45) = false := by
    simp only [beq_eq_false_iff_ne, ne_eq]; omega
  have hs : ¬ (d.val = 43 ∨ d.val = 45) := by omega
  simp only [ParseInt, h45, if_neg hs, h]
  simp only [reduceCtorEq, if_false, Bool.not_false, Bool.true_and, decide_eq_true_eq,
    Bool.false_and, Bool.false_eq_true]
  rw [if_neg (by omega)]

theorem ParseUint_formatBits (u : Nat) (h0 : 0 < u) (hmax : u ≤ 9223372036854775808) :
    ParseUint (formatBits 20 u []) = (u, none) := by
  obtain ⟨d, ds, hd, _⟩ := formatBits_head 20 u h0 (by omega)
  unfold ParseUint
  rw [if_neg (by rw [hd]; simp)]
  exact parseUintLoop_formatBits 20 u (by omega) (by omega)

theorem parseValue_not_null (c : Byte) (t : List Byte) (h : c.val ≠ 110) :
    parseValue (c :: t) = parseNumber (c :: t) := by
  unfold parseValue
  split
  · rename_i heq
    have : c = 110 := (List.cons.inj heq).1
    subst this
    exact absurd rfl h
  · rfl

theorem parseNumber_neg (d : Byte) (ds : List Byte) (c : Byte) (rest : List Byte) (i : Int)
    (hd : 49 ≤ d.val ∧ d.val ≤ 57) (hds : ∀ x ∈ ds, 48 ≤ x.val ∧ x.val ≤ 57)
    (hc : c.val = 44 ∨ c.val = 125) (hp : ParseInt (45 :: d :: ds) = (i, none)) :
    parseNumber (45 :: d :: (ds ++ c :: rest)) = some (GoInt.wrap i, c :: rest) := by
  have hcd : ¬ (48 ≤ c.val ∧ c.val ≤ 57) := by omega
  have h45 : ((45 : Byte).val == 45) = true := by decide
  have hbad : (c.val == 46 || c.val == 101 || c.val == 69) = false := by
    simp only [Bool.or_eq_false_iff, beq_eq_false_iff_ne, ne_eq]
    omega
  simp only [parseNumber, List.cons_append, h45, if_true, List.drop_succ_cons, List.drop_zero]
  rw [if_neg (by omega), if_pos hd]
  simp only [spanDigits_of_digits ds c rest hcd hds, hbad, Bool.false_eq_true, if_false,
    List.singleton_append, List.nil_append, List.cons_append, hp, if_true]

theorem parseNumber_pos (d : Byte) (ds : List Byte) (c : Byte) (rest : List Byte) (i : Int)
    (hd : 49 ≤ d.val ∧ d.val ≤ 57) (hds : ∀ x ∈ ds, 48 ≤ x.val ∧ x.val ≤ 57)
    (hc : c.val = 44 ∨ c.val = 125) (hp : ParseInt (d :: ds) = (i, none)) :
    parseNumber (d :: (ds ++ c :: rest)) = some (GoInt.wrap i, c :: rest) := by
  have hcd : ¬ (48 ≤ c.val ∧ c.val ≤ 57) := by omega
  have h45 : (d.val == 45) = false := by
    simp only [beq_eq_false_iff_ne, ne_eq]; omega
  have hbad : (c.val == 46 || c.val == 101 || c.val == 69) = false := by
    simp only [Bool.or_eq_false_iff, beq_eq_false_iff_ne, ne_eq]
    omega
  simp only [parseNumber, List.cons_append, h45, Bool.false_eq_true, if_false]
  rw [if_neg (by omega), if_pos hd]
  simp only [spanDigits_of_digits ds c rest hcd hds, hbad, Bool.false_eq_true, if_false,
    List.nil_append, hp, if_true]

theorem parseNumber_zero (c : Byte) (rest : List Byte) (hc : c.val = 44 ∨ c.val = 125) :
    parseNumber (48 :: c :: rest) = some (GoInt.zero, c :: rest) := by
  simp +decide only [parseNumber, if_true, if_false, List.drop_zero]
  rw [if_neg (by omega)]

theorem parseNumber_AppendInt (v : GoInt) (c : Byte) (rest : List Byte)
    (hc : c.val = 44 ∨ c.val = 125) :
    parseNumber (AppendInt v ++ c :: rest) = some (v, c :: rest) := by
  have hprop := v.property
  unfold AppendInt
  split
  · rename_i hneg
    have h0 : 0 < (-v.val).toNat := by omega
    have hmax : (-v.val).toNat ≤ 9223372036854775808 := by omega
    obtain ⟨d, ds, hd, hr⟩ := formatBits_head 20 (-v.val).toNat h0 (by omega)
    have hdig := formatBits_digits 20 (-v.val).toNat
    have hpu := ParseUint_formatBits _ h0 hmax
    rw [hd] at hdig hpu
    have hds : ∀ x ∈ ds, 48 ≤ x.val ∧ x.val ≤ 57 :=
      fun x hx => hdig x (List.mem_cons_of_mem _ hx)
    rw [hd, List.cons_append, List.cons_append]
    have hpi := ParseInt_neg (d :: ds) _ hpu hmax
    rw [parseNumber_neg d ds c rest _ hr hds hc hpi]
    have hw : GoInt.wrap (-((-v.val).toNat : Int)) = v := by
      have : -((-v.val).toNat : Int) = v.val := by omega
      rw [this, wrap_val]
    rw [hw]
  · rename_i hneg
    by_cases hz : v.val = 0
    · have hv : v = GoInt.zero := Subtype.ext hz
      subst hv
      have : formatBits 20 (GoInt.zero.val).toNat [] = [48] := by decide
      rw [this]
      exact parseNumber_zero c rest hc
    · have h0 : 0 < (v.val).toNat := by omega
      have hmax : (v.val).toNat ≤ 9223372036854775808 := by omega
      obtain ⟨d, ds, hd, hr⟩ := formatBits_head 20 (v.val).toNat h0 (by omega)
      have hdig := formatBits_digits 20 (v.val).toNat
      have hpu := ParseUint_formatBits _ h0 hmax
      rw [hd] at hdig hpu
      have hds : ∀ x ∈ ds, 48 ≤ x.val ∧ x.val ≤ 57 :=
        fun x hx => hdig x (List.mem_cons_of_mem _ hx)
      rw [hd, List.cons_append]
      have hpi := ParseInt_pos d ds _ (by omega) hpu (by omega)
      rw [parseNumber_pos d ds c rest _ hr hds hc hpi]
      have hw : GoInt.wrap ((v.val).toNat : Int) = v := by
        have : ((v.val).toNat : Int) = v.val := by omega
        rw [this, wrap_val]
      rw [hw]

theorem AppendInt_head (v : GoInt) :
    ∃ d ds, AppendInt v = d :: ds ∧ (d.val = 45 ∨ (48 ≤ d.val ∧ d.val ≤ 57)) := by
  have hprop := v.property
  unfold AppendInt
  split
  · exact ⟨45, _, rfl, Or.inl rfl⟩
  · by_cases hz : v.val = 0
    · refine ⟨48, [], ?_, Or.inr (by decide)⟩
      rw [hz]; decide
    · obtain ⟨d, ds, hd, hr⟩ := formatBits_head 20 (v.val).toNat (by omega) (by omega)
      exact ⟨d, ds, hd, Or.inr (by omega)⟩

theorem parseValue_AppendInt (v : GoInt) (c : Byte) (rest : List Byte)
    (hc : c.val = 44 ∨ c.val = 125) :
    parseValue (AppendInt v ++ c :: rest) = some (v, c :: rest) := by
  obtain ⟨d, ds, hd, hh⟩ := AppendInt_head v
  have := parseNumber_AppendInt v c rest hc
  rw [hd] at this ⊢
  rw [List.cons_append] at this ⊢
  rw [parseValue_not_null d _ (by omega)]
  exact this

/-! ## strconv.Atoi on a written number -/

theorem atoiFast_digit (d : Nat) (n : Int) (hd : d < 10) :
    atoiFast [toByte (48 + d)] n = some (n * 10 + d) := by
  have hv : (toByte (48 + d)).val = 48 + d := by simp only [toByte]; omega
  simp only [atoiFast, hv]
  rw [if_neg (by omega)]
  congr 2
  omega

theorem atoiFast_append (xs : List Byte) : ∀ (ys : List Byte) (n m : Int),
    atoiFast xs n = some m → atoiFast (xs ++ ys) n = atoiFast ys m := by
  induction xs with
  | nil =>
    intro ys n m h
    simp only [atoiFast, Option.some.injEq] at h
    subst h; rfl
  | cons c xs ih =>
    intro ys n m h
    simp only [List.cons_append, atoiFast] at h ⊢
    split at h
    · cases h
    · rename_i hd
      rw [if_neg hd]
      exact ih ys _ m h

theorem atoiFast_formatBits (f : Nat) : ∀ (u : Nat), u < 10 ^ f →
    atoiFast (formatBits f u []) 0 = some (u : Int) := by
  induction f with
  | zero =>
    intro u h
    have : u = 0 := by simp at h; omega
    subst this; rfl
  | succ f ih =>
    intro u h
    simp only [formatBits]
    split
    · have hlt : u / 10 < 10 ^ f := by
        rw [pow_succ] at h
        omega
      rw [formatBits_acc, atoiFast_append _ _ 0 _ (ih (u / 10) hlt)]
      rw [atoiFast_digit (u % 10) _ (by omega)]
      congr 1
      omega
    · have := atoiFast_digit u 0 (by omega)
      simpa using this

/-- `Atoi` reads back what `AppendInt` writes. -/
theorem Atoi_AppendInt (v : GoInt) : Atoi (AppendInt v) = (v, none) := by
  have hprop := v.property
  unfold AppendInt
  split
  · rename_i hneg
    have h0 : 0 < (-v.val).toNat := by omega
    have hmax : (-v.val).toNat ≤ 9223372036854775808 := by omega
    obtain ⟨d, ds, hd, hr⟩ := formatBits_head 20 (-v.val).toNat h0 (by omega)
    have hfast := atoiFast_formatBits 20 (-v.val).toNat (by omega)
    have hpu := ParseUint_formatBits _ h0 hmax
    rw [hd] at hfast hpu
    rw [hd]
    have hw : GoInt.wrap (-((-v.val).toNat : Int)) = v := by
      have : -((-v.val).toNat : Int) = v.val := by omega
      rw [this, wrap_val]
    unfold Atoi
    split
    · simp +decide only [hfast, List.length_cons, Bool.true_or, Bool.true_and, if_true]
      rw [if_neg (by simp)]
      simp only [hw]
    · rw [ParseInt_neg (d :: ds) _ hpu hmax]
      simp only [hw]
  · rename_i hneg
    by_cases hz : v.val = 0
    · have hv : v = GoInt.zero := Subtype.ext hz
      subst hv
      decide
    · have h0 : 0 < (v.val).toNat := by omega
      have hmax : (v.val).toNat ≤ 9223372036854775808 := by omega
      obtain ⟨d, ds, hd, hr⟩ := formatBits_head 20 (v.val).toNat h0 (by omega)
      have hfast := atoiFast_formatBits 20 (v.val).toNat (by omega)
      have hpu := ParseUint_formatBits _ h0 hmax
      rw [hd] at hfast hpu
      rw [hd]
      have hw : GoInt.wrap ((v.val).toNat : Int) = v := by
        have : ((v.val).toNat : Int) = v.val := by omega
        rw [this, wrap_val]
      have hsigned : (d.val == 45 || d.val == 43) = false := by
        simp only [Bool.or_eq_false_iff, beq_eq_false_iff_ne, ne_eq]
        omega
      unfold Atoi
      split
      · simp only [hsigned, Bool.false_and, Bool.false_eq_true, if_false, hfast]
        rw [if_neg (by omega)]
        simp only [hw]
      · rw [ParseInt_pos d ds _ (by omega) hpu (by omega)]
        simp only [hw]

/-! ## Reading back a written object -/

theorem skipSpace_cons (c : Byte) (t : List Byte)
    (h : c.val ≠ 32 ∧ c.val ≠ 9 ∧ c.val ≠ 13 ∧ c.val ≠ 10) : skipSpace (c :: t) = c :: t := by
  have : isSpace c = false := by
    simp only [isSpace, Bool.or_eq_false_iff, beq_eq_false_iff_ne, ne_eq]
    omega
  simp [skipSpace, this]

theorem unquote_key_coerce (k : GoString) (rest : List Byte) :
    unquoteLoop (appendStringLoop k.length k ++ 34 :: rest).length
      (appendStringLoop k.length k ++ 34 :: rest) = some (toValidUTF8 k, rest) := by
  apply unquote_appendString_coerce k.length k (Nat.le_refl _) k.length _ rest (Nat.le_refl _)
  simp

theorem encodeMembers_cons_succ (i : Nat) (e : Sigma (fun _ : GoString => GoInt))
    (l : List (Sigma (fun _ : GoString => GoInt))) :
    encodeMembers (i + 1) (e :: l) =
      44 :: 34 :: (appendStringLoop e.1.length e.1 ++
        34 :: 58 :: (AppendInt e.2 ++ encodeMembers (i + 2) l)) := by
  simp [encodeMembers, appendString, List.append_assoc]

theorem parseMembers_member_coerce (fuel : Nat) (k : GoString) (v : GoInt) (c : Byte)
    (rest : List Byte) (m : Bookmarks) (hc : c.val = 44 ∨ c.val = 125) :
    parseMembers (fuel + 1)
        (34 :: (appendStringLoop k.length k ++ 34 :: 58 :: (AppendInt v ++ c :: rest))) m =
      if c.val = 44 then parseMembers fuel rest (m.insert (toValidUTF8 k) v)
      else some (m.insert (toValidUTF8 k) v, rest) := by
  obtain ⟨d, ds, hd, hh⟩ := AppendInt_head v
  have hsp : skipSpace (AppendInt v ++ c :: rest) = AppendInt v ++ c :: rest := by
    rw [hd, List.cons_append]
    exact skipSpace_cons d _ (by omega)
  have h34 : (34 : Byte).val = 34 := by decide
  have h58 : (58 : Byte).val = 58 := by decide
  simp only [parseMembers]
  rw [skipSpace_cons 34 _ (by decide)]
  simp only [h34, if_true, unquote_key_coerce k _]
  rw [skipSpace_cons 58 _ (by decide)]
  simp only [h58, if_true, hsp, parseValue_AppendInt v c rest hc]
  rw [skipSpace_cons c _ (by omega)]
  simp only
  rcases hc with h | h
  · simp [h]
  · simp [h]

theorem parseMembers_encode_coerce (l : List (Sigma (fun _ : GoString => GoInt))) :
    ∀ (e : Sigma (fun _ : GoString => GoInt)) (fuel i : Nat) (m : Bookmarks) (tail : List Byte),
      l.length < fuel →
      parseMembers fuel
          (34 :: (appendStringLoop e.1.length e.1 ++
            34 :: 58 :: (AppendInt e.2 ++ (encodeMembers (i + 1) l ++ 125 :: tail)))) m =
        some ((e :: l).foldl (fun acc x => acc.insert (toValidUTF8 x.1) x.2) m, tail) := by
  induction l with
  | nil =>
    intro e fuel i m tail hf
    obtain ⟨g, rfl⟩ : ∃ g, fuel = g + 1 := ⟨fuel - 1, by omega⟩
    simp only [encodeMembers, List.nil_append]
    rw [parseMembers_member_coerce g e.1 e.2 125 tail m (Or.inr (by decide))]
    simp +decide
  | cons e2 l ih =>
    intro e fuel i m tail hf
    obtain ⟨g, rfl⟩ : ∃ g, fuel = g + 1 := ⟨fuel - 1, by omega⟩
    rw [encodeMembers_cons_succ]
    simp only [List.cons_append, List.append_assoc]
    rw [parseMembers_member_coerce g e.1 e.2 44 _ m (Or.inl (by decide))]
    simp +decide only [if_true]
    have := ih e2 g (i + 1) (m.insert (toValidUTF8 e.1) e.2) tail (by simp at hf; omega)
    rw [this]
    rfl

theorem encodeMembers_length (l : List (Sigma (fun _ : GoString => GoInt))) :
    ∀ i : Nat, l.length ≤ (encodeMembers i l).length := by
  induction l with
  | nil => intro i; simp
  | cons e l ih =>
    intro i
    have := ih (i + 1)
    simp only [encodeMembers, List.length_append, List.length_cons]
    omega

theorem sortedEntries_perm (M : Bookmarks) : (sortedEntries M).Perm M.entries :=
  List.perm_insertionSort _ _

theorem sortedEntries_nodupKeys (M : Bookmarks) : (sortedEntries M).NodupKeys :=
  (List.perm_nodupKeys (sortedEntries_perm M)).mpr M.nodupKeys

/-- What `json.Unmarshal` makes of what `json.Marshal` wrote, for every map: the members in
key order, each stored under its key coerced to valid UTF-8. -/
theorem jsonUnmarshal_marshal_coerce (M : Bookmarks) :
    jsonUnmarshal (123 :: (encodeMembers 0 (sortedEntries M) ++ [125])) =
      Except.ok (some ((sortedEntries M).foldl
        (fun acc x => acc.insert (toValidUTF8 x.1) x.2) ∅)) := by
  cases hs : sortedEntries M with
  | nil => rfl
  | cons e l =>
    have hlen := encodeMembers_length l 1
    have hpm := parseMembers_encode_coerce l e
      (123 :: (encodeMembers 0 (e :: l) ++ [125])).length 0 ∅ []
      (by simp only [encodeMembers, List.length_cons, List.length_append, List.length_nil,
            Nat.zero_add] at hlen ⊢; omega)
    have henc : 123 :: (encodeMembers 0 (e :: l) ++ [125]) =
        123 :: 34 :: (appendStringLoop e.1.length e.1 ++
          34 :: 58 :: (AppendInt e.2 ++ (encodeMembers (0 + 1) l ++ [125]))) := by
      simp [encodeMembers, appendString, List.append_assoc]
    rw [henc] at hpm ⊢
    unfold jsonUnmarshal
    rw [skipSpace_cons 123 _ (by decide)]
    simp only
    rw [skipSpace_cons 34 _ (by decide)]
    simp only [hpm]
    simp [skipSpace]

theorem lookup_foldl_coerce_absent (l : List (Sigma (fun _ : GoString => GoInt))) :
    ∀ (m : Bookmarks) (q : GoString), (∀ e ∈ l, toValidUTF8 e.1 ≠ q) →
      (l.foldl (fun acc x => acc.insert (toValidUTF8 x.1) x.2) m).lookup q = m.lookup q := by
  induction l with
  | nil => intro m q _; rfl
  | cons e l ih =>
    intro m q h
    have he := h e (List.mem_cons_self _ _)
    rw [List.foldl_cons, ih _ q (fun x hx => h x (List.mem_cons_of_mem _ hx))]
    exact AList.lookup_insert_ne (fun hq => he hq.symm)

theorem lookup_foldl_coerce_mem (l : List (Sigma (fun _ : GoString => GoInt))) :
    ∀ (m : Bookmarks) (k : GoString) (v : GoInt), l.NodupKeys →
      (⟨k, v⟩ : Sigma (fun _ : GoString => GoInt)) ∈ l →
      (∀ e ∈ l, toValidUTF8 e.1 = toValidUTF8 k → e.1 = k) →
      (l.foldl (fun acc x => acc.insert (toValidUTF8 x.1) x.2) m).lookup (toValidUTF8 k)
        = some v := by
  induction l with
  | nil => intro m k v _ h; cases h
  | cons e l ih =>
    intro m k v hnd hmem hcol
    rw [List.nodupKeys_cons] at hnd
    rw [List.foldl_cons]
    rcases List.mem_cons.mp hmem with h | h
    · subst h
      rw [lookup_foldl_coerce_absent]
      · simp
      · intro x hx hq
        have hxk : x.1 = k := hcol x (List.mem_cons_of_mem _ hx) hq
        have hin : x.1 ∈ l.keys := List.mem_keys_of_mem hx
        rw [hxk] at hin
        exact hnd.1 hin
    · exact ih _ k v hnd.2 h (fun x hx => hcol x (List.mem_cons_of_mem _ hx))

/-! ## Loading what was saved -/

theorem load_marshal_coerce (M : Bookmarks) :
    load (some (123 :: (encodeMembers 0 (sortedEntries M) ++ [125]))) ∅ =
      (sortedEntries M).foldl (fun acc x => acc.insert (toValidUTF8 x.1) x.2) ∅ := by
  simp only [load, jsonUnmarshal_marshal_coerce M]

/-- Start-up from the file written for `M` finds an entry of `M` under its key coerced to
valid UTF-8, when no other key of `M` is coerced to the same string. -/
theorem lookup_load_marshal_coerce (M : Bookmarks) (k : GoString) (v : GoInt)
    (h : M.lookup k = some v)
    (hcol : ∀ k2 ∈ M.keys, toValidUTF8 k2 = toValidUTF8 k → k2 = k) :
    (load (some (123 :: (encodeMembers 0 (sortedEntries M) ++ [125]))) ∅).lookup
      (toValidUTF8 k) = some v := by
  rw [load_marshal_coerce]
  apply lookup_foldl_coerce_mem _ _ _ _ (sortedEntries_nodupKeys M)
  · exact (sortedEntries_perm M).symm.subset (AList.mem_lookup_iff.mp h)
  · intro e he
    exact hcol e.1 (List.mem_keys_of_mem ((sortedEntries_perm M).subset he))

/-- Start-up from the file written for `M` finds nothing under a string that no key of `M`
is coerced to. -/
theorem lookup_load_marshal_none (M : Bookmarks) (q : GoString)
    (h : ∀ k2 ∈ M.keys, toValidUTF8 k2 ≠ q) :
    (load (some (123 :: (encodeMembers 0 (sortedEntries M) ++ [125]))) ∅).lookup q = none := by
  rw [load_marshal_coerce, lookup_foldl_coerce_absent]
  · rfl
  · intro e he
    exact h e.1 (List.mem_keys_of_mem ((sortedEntries_perm M).subset he))

/-- With valid UTF-8 keys, start-up from the file written for `M` finds exactly `M`. -/
theorem lookup_load_marshal (M : Bookmarks) (hv : ∀ k ∈ M.keys, ValidString k = true)
    (k : GoString) :
    (load (some (123 :: (encodeMembers 0 (sortedEntries M) ++ [125]))) ∅).lookup k
      = M.lookup k := by
  have hval : ∀ k2 ∈ M.keys, toValidUTF8 k2 = k2 :=
    fun k2 h2 => toValidUTF8_valid k2 (hv k2 h2)
  cases hk : M.lookup k with
  | some v =>
    have hkm : k ∈ M.keys :=
      AList.mem_keys.mp (AList.lookup_isSome.mp (by rw [hk]; rfl))
    have := lookup_load_marshal_coerce M k v hk
      (fun k2 h2 he => by rw [hval k2 h2, hval k hkm] at he; exact he)
    rw [hval k hkm] at this
    exact this
  | none =>
    apply lookup_load_marshal_none
    intro k2 h2 he
    rw [hval k2 h2] at he
    subst he
    exact (AList.lookup_eq_none.mp hk) (AList.mem_keys.mp h2)

/-! ## Keys that are not valid UTF-8 -/

theorem DecodeRune_fffd (T : List Byte) : DecodeRune (239 :: 191 :: 189 :: T) = (65533, 3) := by
  simp +decide [DecodeRune, first]

theorem validUTF8_fffd (m : Nat) (T : List Byte) :
    validUTF8 (m + 1) ([239, 191, 189] ++ T) = validUTF8 m T := by
  have e : validUTF8 (m + 1) (239 :: 191 :: 189 :: T) =
      (if (DecodeRune (239 :: 191 :: 189 :: T)).1 = RuneError ∧
          (DecodeRune (239 :: 191 :: 189 :: T)).2 = 1 then false
        else validUTF8 m ((239 :: 191 :: 189 :: T).drop
          (DecodeRune (239 :: 191 :: 189 :: T)).2)) := rfl
  simp only [List.cons_append, List.nil_append]
  rw [e, DecodeRune_fffd]
  simp

theorem validUTF8_step (m : Nat) (b : Byte) (r T : List Byte)
    (hne : ¬ ((DecodeRune (b :: r)).1 = RuneError ∧ (DecodeRune (b :: r)).2 = 1)) :
    validUTF8 (m + 1) ((b :: r).take (DecodeRune (b :: r)).2 ++ T) = validUTF8 m T := by
  by_cases hb : b.val < 128
  · have hd := DecodeRune_ascii b r hb
    have hd2 := DecodeRune_ascii b T hb
    simp only [hd, List.take_succ_cons, List.take_zero, List.cons_append, List.nil_append,
      validUTF8, hd2, RuneError]
    rw [if_neg (by omega)]
    simp
  · obtain ⟨h1, h2, _, _, h5⟩ := DecodeRune_valid b r hb hne
    have htl : ((b :: r).take (DecodeRune (b :: r)).2).length = (DecodeRune (b :: r)).2 := by
      rw [List.length_take]; simp only [List.length_cons] at h2 ⊢; omega
    obtain ⟨x, xs, hx⟩ : ∃ x xs, (b :: r).take (DecodeRune (b :: r)).2 = x :: xs := by
      cases ht : (b :: r).take (DecodeRune (b :: r)).2 with
      | nil => rw [ht] at htl; simp at htl; omega
      | cons x xs => exact ⟨x, xs, rfl⟩
    have hdec := h5 T
    have hgoal : validUTF8 (m + 1) (x :: (xs ++ T)) = validUTF8 m T := by
      rw [hx, List.cons_append] at hdec
      have e : validUTF8 (m + 1) (x :: (xs ++ T)) =
          (if (DecodeRune (x :: (xs ++ T))).1 = RuneError ∧ (DecodeRune (x :: (xs ++ T))).2 = 1
            then false
            else validUTF8 m ((x :: (xs ++ T)).drop (DecodeRune (x :: (xs ++ T))).2)) := rfl
      rw [e, hdec, if_neg hne]
      rw [← List.cons_append, ← hx, List.drop_left' htl]
    rw [hx, List.cons_append]
    exact hgoal

/-- What `encoding/json` coerces a string to is valid UTF-8. -/
theorem validUTF8_coerceLoop (n : Nat) :
    ∀ (k : GoString) (f m : Nat), k.length ≤ n → (coerceLoop f k).length ≤ m →
      validUTF8 m (coerceLoop f k) = true := by
  induction n with
  | zero =>
    intro k f m hk _
    have : k = [] := List.length_eq_zero.mp (by omega)
    subst this
    rw [coerceLoop_nil]
    cases m <;> rfl
  | succ n ih =>
    intro k f m hk hm
    cases k with
    | nil => rw [coerceLoop_nil]; cases m <;> rfl
    | cons b r =>
      cases f with
      | zero => cases m <;> rfl
      | succ g =>
        simp only [List.length_cons] at hk
        by_cases hne : (DecodeRune (b :: r)).1 = RuneError ∧ (DecodeRune (b :: r)).2 = 1
        · simp only [coerceLoop, hne, and_self, if_true] at hm ⊢
          simp only [List.length_append, List.length_cons, List.length_nil] at hm
          obtain ⟨m', rfl⟩ : ∃ m', m = m' + 1 := ⟨m - 1, by omega⟩
          rw [validUTF8_fffd]
          exact ih r g m' (by omega) (by omega)
        · have hpos : 1 ≤ (DecodeRune (b :: r)).2 := by
            by_cases hb : b.val < 128
            · rw [DecodeRune_ascii b r hb]
            · exact (DecodeRune_valid b r hb hne).1
          have hdl : ((b :: r).drop (DecodeRune (b :: r)).2).length ≤ n := by
            rw [List.length_drop]; simp only [List.length_cons]; omega
          have hco : coerceLoop (g + 1) (b :: r) = (b :: r).take (DecodeRune (b :: r)).2 ++
              coerceLoop g ((b :: r).drop (DecodeRune (b :: r)).2) := by
            simp only [coerceLoop, hne, if_false]
          rw [hco] at hm ⊢
          have hlen2 : (DecodeRune (b :: r)).2 ≤ (b :: r).length := by
            by_cases hb : b.val < 128
            · rw [DecodeRune_ascii b r hb]; simp
            · exact (DecodeRune_valid b r hb hne).2.1
          have htl : ((b :: r).take (DecodeRune (b :: r)).2).length
              = (DecodeRune (b :: r)).2 := by
            rw [List.length_take]; simp only [List.length_cons] at hlen2 ⊢; omega
          rw [List.length_append, htl] at hm
          obtain ⟨m', rfl⟩ : ∃ m', m = m' + 1 := ⟨m - 1, by omega⟩
          rw [validUTF8_step m' b r _ hne]
          exact ih _ g m' hdl (by omega)

theorem ValidString_toValidUTF8 (k : GoString) : ValidString (toValidUTF8 k) = true :=
  validUTF8_coerceLoop k.length k k.length _ (Nat.le_refl _) (Nat.le_refl _)

/-- A key that is not valid UTF-8 is never found at start-up from a file the program
wrote, whatever the map was. -/
theorem invalid_key_not_loaded (M : Bookmarks) (k : GoString) (h : ValidString k = false) :
    (load (some (123 :: (encodeMembers 0 (sortedEntries M) ++ [125]))) ∅).lookup k = none := by
  apply lookup_load_marshal_none
  intro k2 _ he
  have := ValidString_toValidUTF8 k2
  rw [he, h] at this
  cases this

/-! # The claims -/

/-- C1. For every store state, every item and every position: after
`Set(item, position)` a `Get(item)` reads `position`, whatever the item held before (the
last write wins); the set handler, given the decimal text of `position` in its `time`
field, performs exactly this `Set`; and the body the get handler then sends is the JSON
object whose `time` member is `position`. -/
theorem set_then_get (s : Store) (item : GoString) (position : GoInt) :
    (s.set item position).get item = position ∧
    bookmarkSet item (AppendInt position) s = s.set item position ∧
    bookmarkGet item (s.set item position) =
      [123, 34, 116, 105, 109, 101, 34, 58] ++ AppendInt position ++ [125] := by
  simp [bookmarkGet, bookmarkSet, get_set_same, Atoi_AppendInt]

/-- C2. In a store that starts empty, after any sequence of `Set` calls none of which
names `item`, `Get(item)` reads `0`. -/
theorem get_never_set (item : GoString) (calls : List (GoString × GoInt))
    (h : ∀ c ∈ calls, c.1 ≠ item) :
    (applySets Store.init calls).get item = GoInt.zero := by
  simp [Store.get, lookup_applySets_absent _ _ _ h, Store.init]

theorem get_never_set_witness :
    (∀ c ∈ [(([97] : GoString), (⟨5, by decide⟩ : GoInt)), ([98, 99], ⟨7, by decide⟩)],
        c.1 ≠ ([120] : GoString)) ∧
    (applySets Store.init [([97], ⟨5, by decide⟩), ([98, 99], ⟨7, by decide⟩)]).get [120]
      = GoInt.zero :=
  ⟨by decide, get_never_set [120] _ (by decide)⟩

/-- C3. For every store state and every non-empty sequence of `Set` calls with no flush
cycle in between: the next flush cycle hands exactly one content to `WriteFile`, the
marshalled entries after all the calls, in which every key holds the position of the last
call naming it (and what it held before if no call names it); and the flush cycle after
that writes nothing.  This holds whether the writes succeed or fail.

What the one content holds: for every entry whose key is valid UTF-8, the member text made
of the quoted key, a colon and the position; read back at start-up, it gives every entry
under its key coerced to valid UTF-8 (unless two keys are coerced to the same string) and
nothing under any other string; so when the keys are valid UTF-8 it gives exactly the
entries. -/
theorem dirty_coalescing (s : Store) (disk : Disk) (calls : List (GoString × GoInt))
    (w1 w2 : WriteOutcome) (hne : calls ≠ []) :
    ∃ json, jsonMarshal (applySets s calls).bookmarks = Except.ok json ∧
      (flushCycle w1 (applySets s calls) disk).writes = [json] ∧
      (∀ k, (applySets s calls).bookmarks.lookup k =
          (lastSet calls k).orElse (fun _ => s.bookmarks.lookup k)) ∧
      (∀ k v, (applySets s calls).bookmarks.lookup k = some v →
        (ValidString k = true → (appendString k ++ 58 :: AppendInt v) <:+: json) ∧
        ((∀ k2 ∈ (applySets s calls).bookmarks.keys,
            toValidUTF8 k2 = toValidUTF8 k → k2 = k) →
          (Sys.start (some json)).store.bookmarks.lookup (toValidUTF8 k) = some v)) ∧
      (∀ q, (∀ k2 ∈ (applySets s calls).bookmarks.keys, toValidUTF8 k2 ≠ q) →
        (Sys.start (some json)).store.bookmarks.lookup q = none) ∧
      ((∀ k ∈ (applySets s calls).bookmarks.keys, ValidString k = true) →
        ∀ k, (Sys.start (some json)).store.bookmarks.lookup k
          = (applySets s calls).bookmarks.lookup k) ∧
      (flushCycle w2 (flushCycle w1 (applySets s calls) disk).store
          (flushCycle w1 (applySets s calls) disk).disk).writes = [] := by
  refine ⟨_, rfl, ?_, fun k => lookup_applySets s calls k, ?_, ?_, ?_, ?_⟩
  · rw [flushCycle_writes, applySets_needs_saving s calls hne]; rfl
  · intro k v hk
    exact ⟨fun _ => member_infix_marshal _ k v hk,
      fun hcol => lookup_load_marshal_coerce _ k v hk hcol⟩
  · intro q hq
    exact lookup_load_marshal_none _ q hq
  · intro hv k
    exact lookup_load_marshal _ hv k
  · rw [flushCycle_writes, flushCycle_store]; rfl

theorem dirty_coalescing_witness :
    ([(([97] : GoString), (⟨5, by decide⟩ : GoInt)), ([97], ⟨9, by decide⟩)] ≠ []) ∧
    ∃ json, jsonMarshal (applySets Store.init
        [([97], ⟨5, by decide⟩), ([97], ⟨9, by decide⟩)]).bookmarks = Except.ok json ∧
      (flushCycle WriteOutcome.ok (applySets Store.init
        [([97], ⟨5, by decide⟩), ([97], ⟨9, by decide⟩)]) none).writes = [json] ∧
      (appendString [97] ++ 58 :: AppendInt ⟨9, by decide⟩) <:+: json ∧
      (Sys.start (some json)).store.bookmarks.lookup [97] = some ⟨9, by decide⟩ :=
  ⟨by decide,
    (dirty_coalescing Store.init none [([97], ⟨5, by decide⟩), ([97], ⟨9, by decide⟩)]
      WriteOutcome.ok WriteOutcome.ok (by decide)).imp
      (fun _ h => ⟨h.1, h.2.1, (h.2.2.2.1 [97] ⟨9, by decide⟩ (by decide)).1 (by decide),
        (h.2.2.2.1 [97] ⟨9, by decide⟩ (by decide)).2 (by decide)⟩)⟩

/-- C4. In every state reached from start-up (the store just loaded) by `Set` calls,
locked sections and writes, in which no `Set` has occurred since the locked section of the
latest flush cycle whose write succeeded, or since start-up if no write has succeeded: the
loop holds nothing to write, and the next flush cycle writes nothing and leaves the
entries, the flag and the file as they are. -/
theorem noop_flush (disk0 : Disk) (es : List Event) (w : WriteOutcome)
    (h : ((Sys.start disk0).run es).setsSincePersist = 0) :
    ((Sys.start disk0).run es).pending = none ∧
    (flushCycle w ((Sys.start disk0).run es).store ((Sys.start disk0).run es).disk).writes
      = [] ∧
    (flushCycle w ((Sys.start disk0).run es).store ((Sys.start disk0).run es).disk).store
      = ((Sys.start disk0).run es).store ∧
    (flushCycle w ((Sys.start disk0).run es).store ((Sys.start disk0).run es).disk).disk
      = ((Sys.start disk0).run es).disk ∧
    (((Sys.start disk0).run es).step Event.snapshot).step (Event.write w)
      = (Sys.start disk0).run es := by
  obtain ⟨i1, i2, i3, _⟩ := run_invariant disk0 es
  have hidle : ((Sys.start disk0).run es).pending = none := by
    rcases i3 with h3 | h3
    · exact h3
    · omega
  have hclean : ((Sys.start disk0).run es).store.needs_saving = false := by
    cases hs : ((Sys.start disk0).run es).store.needs_saving
    · rfl
    · have := i1.mp hs
      omega
  rw [flushCycle_clean w _ _ hclean, snapshot_clean _ hclean, write_idle _ w hidle]
  exact ⟨hidle, rfl, rfl, rfl, rfl⟩

theorem noop_flush_witness :
    ((Sys.start none).run [Event.set [97] ⟨5, by decide⟩, Event.snapshot,
      Event.write WriteOutcome.ok]).setsSincePersist = 0 ∧
    (flushCycle WriteOutcome.ok
      ((Sys.start none).run [Event.set [97] ⟨5, by decide⟩, Event.snapshot,
        Event.write WriteOutcome.ok]).store
      ((Sys.start none).run [Event.set [97] ⟨5, by decide⟩, Event.snapshot,
        Event.write WriteOutcome.ok]).disk).writes = [] :=
  ⟨by decide, (noop_flush none _ WriteOutcome.ok (by decide)).2.1⟩

/-- C5 (as stated, refuted). A map with the single key `"\xff"`, a one-byte string that is
not valid UTF-8 (a client sends it as `item=%FF`): `json.Marshal` writes the key as the
escape of U+FFFD (six ASCII characters), so the object on disk has that key, and loading
it gives a map without the key `"\xff"` and with the key U+FFFD instead.  The map with
the key `"\xfe"` is written to the very same bytes, so no reader could restore both. -/
theorem roundtrip_fails_on_invalid_utf8 :
    jsonMarshal ((∅ : Bookmarks).insert [255] ⟨1, by decide⟩) =
      Except.ok [123, 34, 92, 117, 102, 102, 102, 100, 34, 58, 49, 125] ∧
    ((∅ : Bookmarks).insert [255] ⟨1, by decide⟩).lookup [255] = some ⟨1, by decide⟩ ∧
    (load (some [123, 34, 92, 117, 102, 102, 102, 100, 34, 58, 49, 125]) ∅).lookup [255]
      = none ∧
    (load (some [123, 34, 92, 117, 102, 102, 102, 100, 34, 58, 49, 125]) ∅).lookup
      [239, 191, 189] = some ⟨1, by decide⟩ ∧
    jsonMarshal ((∅ : Bookmarks).insert [254] ⟨1, by decide⟩) =
      jsonMarshal ((∅ : Bookmarks).insert [255] ⟨1, by decide⟩) := by
  refine ⟨rfl, by decide, by decide, by decide, rfl⟩

/-- C5 (amended). For every mapping `M` whose keys are all valid UTF-8: the bytes the
flush cycle writes for `M` (`json.Marshal`), found in the file at start-up, load to a store
with exactly the entries of `M`: every key looks up to the same result, and the entry
lists are permutations of each other. -/
theorem roundtrip_valid_utf8_keys (M : Bookmarks) (hv : ∀ k ∈ M.keys, ValidString k = true) :
    ∃ json, jsonMarshal M = Except.ok json ∧
      (flushCycle WriteOutcome.ok { bookmarks := M, needs_saving := true } none).disk
        = some json ∧
      (∀ k, (Sys.start (some json)).store.bookmarks.lookup k = M.lookup k) ∧
      (Sys.start (some json)).store.bookmarks.entries.Perm M.entries := by
  show ∃ json, jsonMarshal M = Except.ok json ∧
      (flushCycle WriteOutcome.ok { bookmarks := M, needs_saving := true } none).disk
        = some json ∧
      (∀ k, (load (some json) ∅).lookup k = M.lookup k) ∧
      (load (some json) ∅).entries.Perm M.entries
  refine ⟨_, rfl, ?_, lookup_load_marshal M hv, ?_⟩
  · rw [flushCycle_dirty_ok _ _ rfl]
  · apply List.lookup_ext (AList.nodupKeys _) M.nodupKeys
    intro x y
    have := lookup_load_marshal M hv x
    simp only [AList.lookup] at this
    rw [this]

theorem roundtrip_valid_utf8_keys_witness :
    (∀ k ∈ ((∅ : Bookmarks).insert [195, 169] ⟨5, by decide⟩).keys, ValidString k = true) ∧
    ∃ json, jsonMarshal ((∅ : Bookmarks).insert [195, 169] ⟨5, by decide⟩) = Except.ok json ∧
      (flushCycle WriteOutcome.ok
        { bookmarks := (∅ : Bookmarks).insert [195, 169] ⟨5, by decide⟩, needs_saving := true }
        none).disk = some json ∧
      (∀ k, (Sys.start (some json)).store.bookmarks.lookup k
        = ((∅ : Bookmarks).insert [195, 169] ⟨5, by decide⟩).lookup k) ∧
      (Sys.start (some json)).store.bookmarks.entries.Perm
        ((∅ : Bookmarks).insert [195, 169] ⟨5, by decide⟩).entries :=
  ⟨by decide, roundtrip_valid_utf8_keys _ (by decide)⟩

/-- C6 (as stated, refuted). The `time` value made of twenty nines followed by `x` is no
integer, and `strconv.Atoi` rejects it; but it rejects it with a range error, reached
before the `x` is read, and returns the largest `int` with it.  The handler drops the
error, so the item is stored at 9223372036854775807, not at 0.  The same happens for the
digit string `9223372036854775808`, one beyond the largest `int`, which `Atoi` cannot
parse either. -/
theorem malformed_time_not_zero :
    isIntegerLiteral [57, 57, 57, 57, 57, 57, 57, 57, 57, 57, 57, 57, 57, 57, 57, 57, 57, 57,
      57, 57, 120] = false ∧
    (Atoi [57, 57, 57, 57, 57, 57, 57, 57, 57, 57, 57, 57, 57, 57, 57, 57, 57, 57,
      57, 57, 120]).2 = some NumError.ErrRange ∧
    ((bookmarkSet [97] [57, 57, 57, 57, 57, 57, 57, 57, 57, 57, 57, 57, 57, 57, 57, 57, 57, 57,
      57, 57, 120] Store.init).get [97]).val = 9223372036854775807 ∧
    (Atoi [57, 50, 50, 51, 51, 55, 50, 48, 51, 54, 56, 53, 52, 55, 55, 53, 56, 48, 56]).2
      = some NumError.ErrRange ∧
    ((bookmarkSet [97] [57, 50, 50, 51, 51, 55, 50, 48, 51, 54, 56, 53, 52, 55, 55, 53, 56,
      48, 56] Store.init).get [97]).val = 9223372036854775807 := by
  refine ⟨by decide, by decide, by decide, by decide, by decide⟩

/-- C6 (amended). For every store, every item and every `time` value that is not a decimal
integer literal (an optional sign, then one or more digits and nothing else), provided
the run of digits at its head (after the optional sign) denotes a number below 2^64: the
set handler stores position `0` for the item and marks the store dirty, as any other `Set`
does. -/
theorem malformed_time_stores_zero (s : Store) (item t : GoString)
    (h1 : isIntegerLiteral t = false)
    (h2 : decimalValue (spanDigits (unsignedPart t)).1 ≤ 18446744073709551615) :
    bookmarkSet item t s =
      { bookmarks := s.bookmarks.insert item GoInt.zero, needs_saving := true } ∧
    (bookmarkSet item t s).get item = GoInt.zero := by
  have h : bookmarkSet item t s = s.set item GoInt.zero := by
    simp [bookmarkSet, Atoi_malformed t h1 h2]
  rw [h]
  exact ⟨rfl, by simp [Store.get, Store.set]⟩

theorem malformed_time_stores_zero_witness :
    isIntegerLiteral [49, 50, 120] = false ∧
    decimalValue (spanDigits (unsignedPart [49, 50, 120])).1 ≤ 18446744073709551615 ∧
    (bookmarkSet [97] [49, 50, 120] Store.init).get [97] = GoInt.zero :=
  ⟨by decide, by decide,
    (malformed_time_stores_zero Store.init [97] [49, 50, 120] (by decide) (by decide)).2⟩

/-- C7 (as stated, refuted). From the empty store, `Set` calls to the two distinct keys
`"\xfe"` (position 1) and `"\xff"` (position 2), neither valid UTF-8: the store holds both,
but `json.Marshal` writes both keys as U+FFFD, so the file holds two members with that one
key, and a start-up from it finds neither key, only U+FFFD at 2.  A valid key is lost the
same way: after `Set` calls to U+FFFD itself (position 1) and to `"\xff"` (position 2),
a start-up from the file finds U+FFFD at 2, not at 1. -/
theorem distinct_sets_lost_on_invalid_utf8 :
    (applySets Store.init [([254], ⟨1, by decide⟩), ([255], ⟨2, by decide⟩)]).bookmarks.lookup
      [254] = some ⟨1, by decide⟩ ∧
    (flushCycle WriteOutcome.ok
      (applySets Store.init [([254], ⟨1, by decide⟩), ([255], ⟨2, by decide⟩)]) none).disk =
      some [123, 34, 92, 117, 102, 102, 102, 100, 34, 58, 49, 44,
        34, 92, 117, 102, 102, 102, 100, 34, 58, 50, 125] ∧
    (Sys.start (some [123, 34, 92, 117, 102, 102, 102, 100, 34, 58, 49, 44,
        34, 92, 117, 102, 102, 102, 100, 34, 58, 50, 125])).store.bookmarks.lookup [254]
      = none ∧
    (Sys.start (some [123, 34, 92, 117, 102, 102, 102, 100, 34, 58, 49, 44,
        34, 92, 117, 102, 102, 102, 100, 34, 58, 50, 125])).store.bookmarks.lookup [255]
      = none ∧
    (Sys.start (some [123, 34, 92, 117, 102, 102, 102, 100, 34, 58, 49, 44,
        34, 92, 117, 102, 102, 102, 100, 34, 58, 50, 125])).store.bookmarks.lookup
      [239, 191, 189] = some ⟨2, by decide⟩ ∧
    (flushCycle WriteOutcome.ok
      (applySets Store.init [([239, 191, 189], ⟨1, by decide⟩), ([255], ⟨2, by decide⟩)])
      none).disk =
      some [123, 34, 239, 191, 189, 34, 58, 49, 44,
        34, 92, 117, 102, 102, 102, 100, 34, 58, 50, 125] ∧
    (Sys.start (some [123, 34, 239, 191, 189, 34, 58, 49, 44,
        34, 92, 117, 102, 102, 102, 100, 34, 58, 50, 125])).store.bookmarks.lookup
      [239, 191, 189] = some ⟨2, by decide⟩ := by
  refine ⟨by decide, by decide, by decide, by decide, by decide, by decide, by decide⟩

/-- C7 (amended). For every store state and every non-empty set of `Set` calls to pairwise
distinct keys that are valid UTF-8, applied in whichever order the lock serialises them,
provided no other key in the store is coerced to one of these keys when `json.Marshal`
writes it as valid UTF-8: the flush cycle that follows (its write succeeding) writes one
content, which becomes the file; the entries it marshals hold every one of the keys at the
position given to it, the file contains the member text of every call (the quoted key, a
colon, the position), and a start-up from the file finds every one of the keys at its
position. -/
theorem distinct_sets_all_persisted (s : Store) (disk : Disk)
    (calls order : List (GoString × GoInt))
    (hne : calls ≠ []) (hd : (calls.map Prod.fst).Nodup) (hp : order.Perm calls)
    (hv : ∀ c ∈ calls, ValidString c.1 = true)
    (hcol : ∀ c ∈ calls, ∀ k ∈ (applySets s order).bookmarks.keys,
      toValidUTF8 k = c.1 → k = c.1) :
    ∃ json, jsonMarshal (applySets s order).bookmarks = Except.ok json ∧
      (flushCycle WriteOutcome.ok (applySets s order) disk).writes = [json] ∧
      (flushCycle WriteOutcome.ok (applySets s order) disk).disk = some json ∧
      ∀ c ∈ calls, (applySets s order).bookmarks.lookup c.1 = some c.2 ∧
        (appendString c.1 ++ 58 :: AppendInt c.2) <:+: json ∧
        (Sys.start (some json)).store.bookmarks.lookup c.1 = some c.2 := by
  have hd2 : (order.map Prod.fst).Nodup := (hp.map Prod.fst).nodup_iff.mpr hd
  have hl : ∀ c ∈ calls, (applySets s order).bookmarks.lookup c.1 = some c.2 :=
    fun c hc => lookup_applySets_nodup order s c hd2 (hp.symm.subset hc)
  have hne2 : order ≠ [] := fun h => hne (by simpa [h] using hp.symm)
  refine ⟨_, rfl, ?_, ?_, fun c hc => ⟨hl c hc, member_infix_marshal _ _ _ (hl c hc), ?_⟩⟩
  · rw [flushCycle_dirty_ok _ _ (applySets_needs_saving s order hne2)]
  · rw [flushCycle_dirty_ok _ _ (applySets_needs_saving s order hne2)]
  · have hk : toValidUTF8 c.1 = c.1 := toValidUTF8_valid c.1 (hv c hc)
    have := lookup_load_marshal_coerce (applySets s order).bookmarks c.1 c.2 (hl c hc)
      (fun k2 h2 he => hcol c hc k2 h2 (by rw [he, hk]))
    rw [hk] at this
    exact this

theorem distinct_sets_all_persisted_witness :
    ([(([97] : GoString), (⟨5, by decide⟩ : GoInt)), ([98], ⟨7, by decide⟩)] ≠ []) ∧
    (([(([97] : GoString), (⟨5, by decide⟩ : GoInt)), ([98], ⟨7, by decide⟩)].map
      Prod.fst).Nodup) ∧
    ([(([98] : GoString), (⟨7, by decide⟩ : GoInt)), ([97], ⟨5, by decide⟩)].Perm
      [([97], ⟨5, by decide⟩), ([98], ⟨7, by decide⟩)]) ∧
    (∀ c ∈ [(([97] : GoString), (⟨5, by decide⟩ : GoInt)), ([98], ⟨7, by decide⟩)],
      ValidString c.1 = true) ∧
    (∀ c ∈ [(([97] : GoString), (⟨5, by decide⟩ : GoInt)), ([98], ⟨7, by decide⟩)],
      ∀ k ∈ (applySets Store.init
        [([98], ⟨7, by decide⟩), ([97], ⟨5, by decide⟩)]).bookmarks.keys,
      toValidUTF8 k = c.1 → k = c.1) ∧
    ∃ json, jsonMarshal (applySets Store.init
        [([98], ⟨7, by decide⟩), ([97], ⟨5, by decide⟩)]).bookmarks = Except.ok json ∧
      (flushCycle WriteOutcome.ok (applySets Store.init
        [([98], ⟨7, by decide⟩), ([97], ⟨5, by decide⟩)]) none).writes = [json] ∧
      (flushCycle WriteOutcome.ok (applySets Store.init
        [([98], ⟨7, by decide⟩), ([97], ⟨5, by decide⟩)]) none).disk = some json ∧
      ∀ c ∈ [(([97] : GoString), (⟨5, by decide⟩ : GoInt)), ([98], ⟨7, by decide⟩)],
        (applySets Store.init
          [([98], ⟨7, by decide⟩), ([97], ⟨5, by decide⟩)]).bookmarks.lookup c.1 = some c.2 ∧
        (appendString c.1 ++ 58 :: AppendInt c.2) <:+: json ∧
        (Sys.start (some json)).store.bookmarks.lookup c.1 = some c.2 :=
  ⟨by decide, by decide, List.Perm.swap _ _ _, by decide, by decide,
    distinct_sets_all_persisted Store.init none _ _ (by decide) (by decide)
      (List.Perm.swap _ _ _) (by decide) (by decide)⟩

/-- C8 (as stated, refuted). Start with no file, set item `a` to 5, then run a flush
cycle (locked section, then write) whose write fails.  The flag is now clear, although no
write has ever succeeded, a `Set` has occurred since start-up, and the entries (`a` at 5)
differ from the entries the store started with (no `a`). -/
theorem dirty_iff_changed_fails :
    ((Sys.start none).run [Event.set [97] ⟨5, by decide⟩, Event.snapshot,
        Event.write (WriteOutcome.fail none)]).store.needs_saving = false ∧
    ((Sys.start none).run [Event.set [97] ⟨5, by decide⟩, Event.snapshot,
        Event.write (WriteOutcome.fail none)]).setsSincePersist = 1 ∧
    ((Sys.start none).run [Event.set [97] ⟨5, by decide⟩, Event.snapshot,
        Event.write (WriteOutcome.fail none)]).persisted = none ∧
    ((Sys.start none).run [Event.set [97] ⟨5, by decide⟩, Event.snapshot,
        Event.write (WriteOutcome.fail none)]).store.bookmarks.lookup [97]
      = some ⟨5, by decide⟩ ∧
    (Sys.start none).store.bookmarks.lookup [97] = none := by
  refine ⟨by decide, by decide, ?_, by decide, by decide⟩
  rfl

/-- C8 (amended). In every state reached from start-up by `Set` calls, locked sections
and writes, each write succeeding or failing: the flag is set if and only if a `Set` has
occurred since the latest locked section that took a snapshot (whether or not the write
of that snapshot succeeded), or since start-up if none did; and whenever the flag is set,
a `Set` has occurred since the snapshot of the latest write that succeeded. -/
theorem dirty_iff_set_since_snapshot (disk0 : Disk) (es : List Event) :
    (((Sys.start disk0).run es).store.needs_saving = true ↔
        0 < ((Sys.start disk0).run es).setsSinceCapture) ∧
    (((Sys.start disk0).run es).store.needs_saving = false ∨
        0 < ((Sys.start disk0).run es).setsSincePersist) := by
  obtain ⟨i1, i2, _, _⟩ := run_invariant disk0 es
  refine ⟨i1, ?_⟩
  cases hs : ((Sys.start disk0).run es).store.needs_saving
  · exact Or.inl rfl
  · have := i1.mp hs
    exact Or.inr (by omega)

/-- C9. For every dirty store: a flush cycle whose write fails returns (the loop goes
on), logs the failure, leaves the entries as they are and leaves the flag clear; and with
no further `Set` the next flush cycle attempts no write. -/
theorem failed_write_stays_clean (s : Store) (disk left : Disk) (w2 : WriteOutcome)
    (h : s.needs_saving = true) :
    (flushCycle (WriteOutcome.fail left) s disk).store.bookmarks = s.bookmarks ∧
    (flushCycle (WriteOutcome.fail left) s disk).store.needs_saving = false ∧
    (flushCycle (WriteOutcome.fail left) s disk).writes.length = 1 ∧
    (flushCycle (WriteOutcome.fail left) s disk).logged = ["Error writing"] ∧
    (flushCycle w2 (flushCycle (WriteOutcome.fail left) s disk).store
      (flushCycle (WriteOutcome.fail left) s disk).disk).writes = [] := by
  rw [flushCycle_dirty_fail s disk left h]
  refine ⟨rfl, rfl, rfl, rfl, ?_⟩
  rw [flushCycle_writes]; rfl

theorem failed_write_stays_clean_witness :
    (Store.init.set [97] ⟨5, by decide⟩).needs_saving = true ∧
    (flushCycle (WriteOutcome.fail none) (Store.init.set [97] ⟨5, by decide⟩)
      none).store.needs_saving = false ∧
    (flushCycle WriteOutcome.ok
      (flushCycle (WriteOutcome.fail none) (Store.init.set [97] ⟨5, by decide⟩) none).store
      (flushCycle (WriteOutcome.fail none) (Store.init.set [97] ⟨5, by decide⟩) none).disk
      ).writes = [] :=
  ⟨rfl, (failed_write_stays_clean _ none none WriteOutcome.ok rfl).2.1,
    (failed_write_stays_clean _ none none WriteOutcome.ok rfl).2.2.2.2⟩

/-- C10. After every sequence of `Set` calls, locked sections of the flush loop (dirty
check, copy, dirty clear) and writes from start-up, each taken as one atomic step:
whenever the flag is clear, the entries are those captured by the most recent snapshot,
or those the store started with if no snapshot has been taken. -/
theorem clean_store_equals_snapshot (disk0 : Disk) (es : List Event)
    (h : ((Sys.start disk0).run es).store.needs_saving = false) :
    ((Sys.start disk0).run es).store.bookmarks =
      (((Sys.start disk0).run es).captured).getD (Sys.start disk0).store.bookmarks :=
  (run_invariant disk0 es).2.2.2 h

theorem clean_store_equals_snapshot_witness :
    ((Sys.start none).run [Event.set [97] ⟨5, by decide⟩, Event.snapshot,
        Event.set [98] ⟨7, by decide⟩, Event.write (WriteOutcome.fail none),
        Event.snapshot]).store.needs_saving = false ∧
    ((Sys.start none).run [Event.set [97] ⟨5, by decide⟩, Event.snapshot,
        Event.set [98] ⟨7, by decide⟩, Event.write (WriteOutcome.fail none),
        Event.snapshot]).store.bookmarks =
      (((Sys.start none).run [Event.set [97] ⟨5, by decide⟩, Event.snapshot,
        Event.set [98] ⟨7, by decide⟩, Event.write (WriteOutcome.fail none),
        Event.snapshot]).captured).getD (Sys.start none).store.bookmarks :=
  ⟨by decide, clean_store_equals_snapshot none _ (by decide)⟩

end Gondola
